import Mathlib

/-!
Verification development for the ZQ-DDC-T1 provenance tooling.

The repository signs, verifies and gates YAML release manifests:

* `tools/sign_manifest.py`  : loads a manifest as an ordered mapping,
  removes the signature value, serialises the rest deterministically
  (`ordered_dump`), signs the bytes with minisign, and re-inserts the
  signature.
* `tools/verify_manifest.py`: mirror image of the signer.
* `tools/tag_protect_unsigned.py`: the release gate; its fallback verifier
  canonicalises the `doc_index` sub-object as key-sorted compact JSON.
* `tools/hash_inventory.py` : walks a file tree, hashes each file and folds
  the digests into a Merkle root.

Python `OrderedDict` documents are modelled as ordered association lists
(`Doc`).  Scalars are modelled as strings (`Val.s`); nested mappings as
`Val.m`.  The external minisign primitive and the SHA-256 digest are
collaborators of the repository (not part of its sources) and are modelled
as explicit function parameters.
-/

/-- A YAML-ish value: a scalar (modelled as a string) or an ordered mapping. -/
inductive Val where
  | s (v : String)
  | m (entries : List (String × Val))
deriving Repr

/-- An ordered document: what `yaml.load` with the `OrderedLoader` of
`sign_manifest.py` / `verify_manifest.py` produces for a top-level mapping. -/
abbrev Doc := List (String × Val)

mutual

/-- Boolean equality on values. -/
def Val.beq : Val → Val → Bool
  | .s a, .s b => a == b
  | .m a, .m b => Val.beqEntries a b
  | _, _ => false

/-- Boolean equality on entry lists. -/
def Val.beqEntries : List (String × Val) → List (String × Val) → Bool
  | [], [] => true
  | (k1, v1) :: r1, (k2, v2) :: r2 => k1 == k2 && Val.beq v1 v2 && Val.beqEntries r1 r2
  | _ :: _, [] => false
  | [], _ :: _ => false

end

mutual

theorem Val.beq_iff : ∀ a b : Val, Val.beq a b = true ↔ a = b
  | .s a, .s b => by simp [Val.beq]
  | .m a, .m b => by simp [Val.beq, Val.beqEntries_iff a b]
  | .s _, .m _ => by simp [Val.beq]
  | .m _, .s _ => by simp [Val.beq]

theorem Val.beqEntries_iff : ∀ a b : List (String × Val), Val.beqEntries a b = true ↔ a = b
  | [], [] => by simp [Val.beqEntries]
  | (k1, v1) :: r1, (k2, v2) :: r2 => by
      simp [Val.beqEntries, Val.beq_iff v1 v2, Val.beqEntries_iff r1 r2, and_assoc]
  | _ :: _, [] => by simp [Val.beqEntries]
  | [], _ :: _ => by simp [Val.beqEntries]

end

instance : DecidableEq Val := fun a b => decidable_of_iff _ (Val.beq_iff a b)

/-- First-match key lookup, the semantics of `d[k]` on a Python dict. -/
def lookupKey (k : String) : Doc → Option Val
  | [] => none
  | (k', v) :: rest => if k' = k then some v else lookupKey k rest

/-- Python `k in d` for a dict. -/
def hasKey (k : String) (d : Doc) : Bool :=
  (lookupKey k d).isSome

/-- Python `del d[k]`: remove the (unique) entry with key `k`.  Modulo
duplicate keys, which a Python dict cannot contain, removing every
occurrence coincides with removing the one occurrence. -/
def eraseKey (k : String) (d : Doc) : Doc :=
  d.filter (fun e => e.1 ≠ k)

/-- Python `d[k] = v`: replace the value of an existing key in place,
otherwise append the new key at the end (insertion-order semantics). -/
def setKey (k : String) (v : Val) : Doc → Doc
  | [] => [(k, v)]
  | (k', v') :: rest => if k' = k then (k, v) :: rest else (k', v') :: setKey k v rest

/-- The keys of a document, in order. -/
def keysOf (d : Doc) : List String := d.map Prod.fst

/-- A document representing a Python dict never repeats a key. -/
def NodupKeys (d : Doc) : Prop := (keysOf d).Nodup

instance (d : Doc) : Decidable (NodupKeys d) := by
  unfold NodupKeys
  infer_instance

/-- Python truthiness of a value (`if not x`): the empty string and the
empty mapping are falsy. -/
def isTruthy : Val → Bool
  | .s v => v ≠ ""
  | .m l => !l.isEmpty

/-- Python `needle in haystack` for strings: substring containment. -/
def containsSub (needle hay : String) : Bool :=
  (hay.splitOn needle).length ≠ 1

section AssocLemmas

variable {k k' : String} {v v' : Val} {l l1 l2 : Doc}

@[simp] theorem lookupKey_nil : lookupKey k [] = none := rfl

theorem lookupKey_cons :
    lookupKey k ((k', v) :: l) = if k' = k then some v else lookupKey k l := rfl

@[simp] theorem hasKey_nil : hasKey k [] = false := rfl

theorem hasKey_cons :
    hasKey k ((k', v) :: l) = (k' = k || hasKey k l) := by
  by_cases h : k' = k <;> simp [hasKey, lookupKey_cons, h]

@[simp] theorem eraseKey_nil : eraseKey k [] = [] := rfl

theorem eraseKey_cons :
    eraseKey k ((k', v) :: l) = if k' = k then eraseKey k l else (k', v) :: eraseKey k l := by
  by_cases h : k' = k <;> simp [eraseKey, h]

@[simp] theorem setKey_nil : setKey k v [] = [(k, v)] := rfl

theorem setKey_cons :
    setKey k v ((k', v') :: l) = if k' = k then (k, v) :: l else (k', v') :: setKey k v l := rfl

theorem lookupKey_append_right (h : hasKey k l1 = false) :
    lookupKey k (l1 ++ l2) = lookupKey k l2 := by
  induction l1 with
  | nil => simp
  | cons e rest ih =>
    obtain ⟨k2, v2⟩ := e
    rw [hasKey_cons] at h
    simp at h
    simpa [lookupKey_cons, h.1] using ih (by simp [h.2])

theorem lookupKey_eraseKey_self : lookupKey k (eraseKey k l) = none := by
  induction l with
  | nil => simp
  | cons e rest ih =>
    obtain ⟨k2, v2⟩ := e
    rw [eraseKey_cons]
    by_cases h : k2 = k
    · simpa [h] using ih
    · simpa [lookupKey_cons, h] using ih

theorem lookupKey_eraseKey_ne (h : k' ≠ k) :
    lookupKey k' (eraseKey k l) = lookupKey k' l := by
  induction l with
  | nil => simp
  | cons e rest ih =>
    obtain ⟨k2, v2⟩ := e
    rw [eraseKey_cons]
    by_cases h2 : k2 = k
    · subst h2
      simpa [lookupKey_cons, Ne.symm h] using ih
    · by_cases h3 : k2 = k'
      · subst h3
        simp [h2, lookupKey_cons]
      · simp [h2, lookupKey_cons, h3, ih]

theorem eraseKey_append :
    eraseKey k (l1 ++ l2) = eraseKey k l1 ++ eraseKey k l2 := by
  simp [eraseKey, List.filter_append]

theorem eraseKey_of_not_has (h : hasKey k l = false) : eraseKey k l = l := by
  induction l with
  | nil => simp
  | cons e rest ih =>
    obtain ⟨k2, v2⟩ := e
    rw [hasKey_cons] at h
    simp at h
    rw [eraseKey_cons]
    simp [h.1, ih (by simp [h.2])]

theorem lookupKey_setKey_self : lookupKey k (setKey k v l) = some v := by
  induction l with
  | nil => simp [lookupKey_cons]
  | cons e rest ih =>
    obtain ⟨k2, v2⟩ := e
    rw [setKey_cons]
    by_cases h : k2 = k
    · simp [h, lookupKey_cons]
    · simpa [lookupKey_cons, h] using ih

theorem lookupKey_setKey_ne (h : k' ≠ k) :
    lookupKey k' (setKey k v l) = lookupKey k' l := by
  induction l with
  | nil => simp [lookupKey_cons, Ne.symm h]
  | cons e rest ih =>
    obtain ⟨k2, v2⟩ := e
    rw [setKey_cons]
    by_cases h2 : k2 = k
    · subst h2
      simp [lookupKey_cons, Ne.symm h]
    · by_cases h3 : k2 = k'
      · subst h3
        simp [h2, lookupKey_cons]
      · simp [h2, lookupKey_cons, h3, ih]

theorem setKey_setKey : setKey k v (setKey k v' l) = setKey k v l := by
  induction l with
  | nil => simp [setKey_cons]
  | cons e rest ih =>
    obtain ⟨k2, v2⟩ := e
    rw [setKey_cons]
    by_cases h : k2 = k
    · simp [h, setKey_cons]
    · simp [setKey_cons, h, ih]

theorem eraseKey_setKey : eraseKey k (setKey k v l) = eraseKey k l := by
  induction l with
  | nil => simp [eraseKey_cons]
  | cons e rest ih =>
    obtain ⟨k2, v2⟩ := e
    rw [setKey_cons]
    by_cases h : k2 = k
    · simp [h, eraseKey_cons]
    · simp [eraseKey_cons, h, ih]

theorem setKey_self (hnd : NodupKeys l) (hv : lookupKey k l = some v) :
    setKey k v l = l := by
  induction l with
  | nil => simp at hv
  | cons e rest ih =>
    obtain ⟨k2, v2⟩ := e
    unfold NodupKeys keysOf at hnd
    simp at hnd
    rw [setKey_cons]
    by_cases h : k2 = k
    · subst h
      rw [lookupKey_cons] at hv
      simp at hv
      simp [hv]
    · rw [lookupKey_cons] at hv
      simp [h] at hv
      simp [h, ih hnd.2 hv]

theorem setKey_of_not_has (h : hasKey k l = false) : setKey k v l = l ++ [(k, v)] := by
  induction l with
  | nil => simp
  | cons e rest ih =>
    obtain ⟨k2, v2⟩ := e
    rw [hasKey_cons] at h
    simp at h
    rw [setKey_cons]
    simp [h.1, ih (by simp [h.2])]

theorem setKey_ne_nil : setKey k v l ≠ [] := by
  cases l with
  | nil => simp
  | cons e rest =>
    obtain ⟨k2, v2⟩ := e
    rw [setKey_cons]
    by_cases h : k2 = k <;> simp [h]

theorem nodupKeys_eraseKey (h : NodupKeys l) : NodupKeys (eraseKey k l) := by
  unfold NodupKeys keysOf at h ⊢
  exact (List.Sublist.map Prod.fst (List.filter_sublist l)).nodup h

theorem nodupKeys_nil : NodupKeys [] := by
  unfold NodupKeys keysOf
  simp

end AssocLemmas

/-!
## The canonical serialiser (`ordered_dump`)

`sign_manifest.py` and `verify_manifest.py` both serialise with
`yaml.dump(data, Dumper=OrderedDumper, default_flow_style=False,
allow_unicode=True, sort_keys=False)`: an order-preserving block-style
emitter with two-space indentation.  `yamlDump` below reproduces that
emitter on the fragment of documents the manifests use: nested mappings
whose scalars are short plain-safe strings (rendered unquoted and unfolded
by PyYAML), plus the empty mapping (rendered `{}`).
-/

/-- The opening brace character. -/
def lbrace : Char := Char.ofNat 123

/-- The closing brace character. -/
def rbrace : Char := Char.ofNat 125

/-- A run of `n` indentation spaces. -/
def indentChars (n : Nat) : List Char := List.replicate n ' '

/-- The lines (as character lists) of the block-style emission of an entry
list at indentation `ind`: `key: value` for a scalar, `key: {}` for an
empty mapping, and `key:` followed by a two-space-deeper block for a
non-empty mapping. -/
def dumpEntries : Nat → Doc → List (List Char)
  | _, [] => []
  | ind, (k, .s str) :: rest =>
      (indentChars ind ++ k.data ++ [':', ' '] ++ str.data) :: dumpEntries ind rest
  | ind, (k, .m []) :: rest =>
      (indentChars ind ++ k.data ++ [':', ' ', lbrace, rbrace]) :: dumpEntries ind rest
  | ind, (k, .m (e :: es)) :: rest =>
      (indentChars ind ++ k.data ++ [':']) ::
        (dumpEntries (ind + 2) (e :: es) ++ dumpEntries ind rest)

/-- Join emitted lines with newlines. -/
def joinLines (ls : List (List Char)) : String :=
  String.mk (ls.flatMap (fun l => l ++ ['\n']))

/-- The model of `ordered_dump(data)` (followed by `.encode("utf-8")`; the
byte string is modelled as the Lean `String`).  PyYAML emits the empty
top-level mapping as `{}\n`. -/
def yamlDump (d : Doc) : String :=
  match d with
  | [] => String.mk [lbrace, rbrace, '\n']
  | _ => joinLines (dumpEntries 0 d)

/-- Characters PyYAML emits as unquoted single-token plain scalars in every
position: ASCII lowercase letters, dash and underscore. -/
def safeChar (c : Char) : Bool := ('a' ≤ c && c ≤ 'z') || c = '-' || c = '_'

/-- Strings of safe characters that PyYAML would nevertheless quote because
they resolve to booleans or null. -/
def reservedWords : List String := ["true", "false", "yes", "no", "on", "off", "null"]

/-- A string PyYAML renders as an unquoted plain scalar, byte for byte. -/
def safeStr (s : String) : Bool :=
  s ≠ "" && s.data.all safeChar && !(reservedWords.contains s)

mutual

/-- Values on which `yamlDump` coincides with PyYAML and is injective:
plain-safe scalars and non-empty mappings of plain-safe entries. -/
def plainSafeVal : Val → Bool
  | .s str => safeStr str
  | .m l => !l.isEmpty && plainSafeEntries l

/-- Entry lists of plain-safe keys and values. -/
def plainSafeEntries : List (String × Val) → Bool
  | [] => true
  | (k, v) :: rest => safeStr k && plainSafeVal v && plainSafeEntries rest

end

section DumpInjective

/-- Split a true Boolean conjunction. -/
theorem bAnd {a b : Bool} (h : (a && b) = true) : a = true ∧ b = true :=
  (Bool.and_eq_true a b).mp h

/-- Unpacking a plain-safe entry list one entry at a time. -/
theorem plainSafeEntries_cons_iff {k : String} {v : Val} {rest : Doc}
    (h : plainSafeEntries ((k, v) :: rest) = true) :
    safeStr k = true ∧ plainSafeVal v = true ∧ plainSafeEntries rest = true := by
  have h' : (safeStr k && plainSafeVal v && plainSafeEntries rest) = true := h
  exact ⟨(bAnd (bAnd h').1).1, (bAnd (bAnd h').1).2, (bAnd h').2⟩

theorem plainSafeVal_s {str : String} (h : plainSafeVal (.s str) = true) :
    safeStr str = true := h

theorem plainSafeVal_m {l : Doc} (h : plainSafeVal (.m l) = true) :
    l ≠ [] ∧ plainSafeEntries l = true := by
  have h' : (!l.isEmpty && plainSafeEntries l) = true := h
  refine ⟨?_, (bAnd h').2⟩
  intro hl
  subst hl
  exact absurd (bAnd h').1 (by decide)

/-- All characters of a safe string are safe. -/
theorem safeStr_all {s : String} (h : safeStr s = true) :
    ∀ x ∈ s.data, safeChar x = true := by
  have h' : (decide (s ≠ "") && s.data.all safeChar && !(reservedWords.contains s)) = true := h
  exact List.all_eq_true.mp (bAnd (bAnd h').1).2

/-- A safe string is a non-empty list of safe characters. -/
theorem safeStr_data {s : String} (h : safeStr s = true) :
    ∃ c cr, s.data = c :: cr ∧ safeChar c = true ∧ ∀ x ∈ cr, safeChar x = true := by
  have h' : (decide (s ≠ "") && s.data.all safeChar && !(reservedWords.contains s)) = true := h
  have hne : s ≠ "" := of_decide_eq_true (bAnd (bAnd h').1).1
  have hall := safeStr_all h
  cases hd : s.data with
  | nil =>
    refine absurd ?_ hne
    cases s with
    | mk data =>
      simp at hd
      subst hd
      rfl
  | cons c cr =>
    exact ⟨c, cr, rfl, hall c (hd ▸ List.mem_cons_self c cr),
      fun x hx => hall x (hd ▸ List.mem_cons_of_mem _ hx)⟩

/-- Generic marker splitting: two decompositions around the first occurrence
of a marker element agree. -/
theorem append_marker_inj {α : Type} (mark : α) :
    ∀ (a b t1 t2 : List α), mark ∉ a → mark ∉ b →
      a ++ mark :: t1 = b ++ mark :: t2 → a = b ∧ t1 = t2 := by
  intro a
  induction a with
  | nil =>
    intro b t1 t2 _ hb heq
    cases b with
    | nil => simpa using heq
    | cons c b' =>
      simp at heq
      obtain ⟨rfl, -⟩ := heq
      exact absurd (List.mem_cons_self _ _) hb
  | cons c a' ih =>
    intro b t1 t2 ha hb heq
    cases b with
    | nil =>
      simp at heq
      obtain ⟨rfl, -⟩ := heq
      exact absurd (List.mem_cons_self _ _) ha
    | cons c2 b' =>
      simp at heq
      obtain ⟨rfl, heq⟩ := heq
      have := ih b' t1 t2 (fun h => ha (List.mem_cons_of_mem _ h))
        (fun h => hb (List.mem_cons_of_mem _ h)) heq
      exact ⟨by rw [this.1], this.2⟩

/-- Splitting equal concatenations at a boundary recognised by a predicate
that holds on every element of the first parts and fails on the heads of the
second parts. -/
theorem append_split_pred {α : Type} (P : α → Prop) :
    ∀ (A1 A2 B1 B2 : List α), A1 ++ B1 = A2 ++ B2 →
      (∀ x ∈ A1, P x) → (∀ x ∈ A2, P x) →
      (∀ h t, B1 = h :: t → ¬ P h) → (∀ h t, B2 = h :: t → ¬ P h) →
      A1 = A2 ∧ B1 = B2 := by
  intro A1
  induction A1 with
  | nil =>
    intro A2 B1 B2 heq _ hA2 hB1 _
    cases A2 with
    | nil => simpa using heq
    | cons a A2' =>
      simp at heq
      subst heq
      exact absurd (hA2 a (List.mem_cons_self a A2')) (hB1 a _ rfl)
  | cons a A1' ih =>
    intro A2 B1 B2 heq hA1 hA2 hB1 hB2
    cases A2 with
    | nil =>
      simp at heq
      exact absurd (hA1 a (List.mem_cons_self a A1')) (hB2 a _ heq.symm)
    | cons a2 A2' =>
      simp at heq
      obtain ⟨rfl, heq⟩ := heq
      have := ih A2' B1 B2 heq (fun x hx => hA1 x (List.mem_cons_of_mem _ hx))
        (fun x hx => hA2 x (List.mem_cons_of_mem _ hx)) hB1 hB2
      exact ⟨by rw [this.1], this.2⟩

/-- Number of leading spaces of an emitted line. -/
def leadingSpaces (l : List Char) : Nat :=
  (l.takeWhile (fun c => c = ' ')).length

theorem safeChar_ne_space {c : Char} (h : safeChar c = true) : c ≠ ' ' := by
  intro hc
  subst hc
  exact absurd h (by decide)

theorem safeChar_ne_colon {c : Char} (h : safeChar c = true) : c ≠ ':' := by
  intro hc
  subst hc
  exact absurd h (by decide)

theorem safeChar_ne_newline {c : Char} (h : safeChar c = true) : c ≠ '\n' := by
  intro hc
  subst hc
  exact absurd h (by decide)

theorem leadingSpaces_indent (ind : Nat) (c : Char) (r : List Char)
    (hc : c ≠ ' ') : leadingSpaces (indentChars ind ++ c :: r) = ind := by
  induction ind with
  | zero => simp [leadingSpaces, indentChars, List.takeWhile_cons, hc]
  | succ n ih =>
    simp only [indentChars, List.replicate_succ, List.cons_append]
    simp only [leadingSpaces, List.takeWhile_cons, if_pos rfl]
    simp only [indentChars, leadingSpaces] at ih
    simp [ih, hc]

/-- Membership in an emitted line decomposed into its three regions. -/
theorem chars_cases {x : Char} {ind : Nat} {kd tail : List Char}
    (hk : ∀ y ∈ kd, safeChar y = true)
    (ht : ∀ y ∈ tail, y = ' ' ∨ y = ':' ∨ safeChar y = true)
    (hx : x ∈ indentChars ind ++ (kd ++ tail)) :
    x = ' ' ∨ x = ':' ∨ safeChar x = true := by
  rcases List.mem_append.mp hx with hx | hx
  · exact Or.inl (List.eq_of_mem_replicate hx)
  · rcases List.mem_append.mp hx with hx | hx
    · exact Or.inr (Or.inr (hk x hx))
    · exact ht x hx

/-- Every line emitted by `dumpEntries ind` for a plain-safe entry list
starts with at least `ind` spaces followed by a safe character, and contains
only spaces, colons and safe characters. -/
theorem mem_dumpEntries (ind : Nat) (l : Doc) (hps : plainSafeEntries l = true) :
    ∀ line ∈ dumpEntries ind l,
      (∃ n c r, ind ≤ n ∧ safeChar c = true ∧ line = indentChars n ++ c :: r) ∧
      (∀ c ∈ line, c = ' ' ∨ c = ':' ∨ safeChar c = true) := by
  induction ind, l using dumpEntries.induct with
  | case1 ind => simp [dumpEntries]
  | case2 ind k str rest ih =>
    obtain ⟨hk, hv, hrest⟩ := plainSafeEntries_cons_iff hps
    have hstr := plainSafeVal_s hv
    intro line hline
    simp only [dumpEntries, List.mem_cons] at hline
    rcases hline with rfl | hline
    · obtain ⟨c, cr, hd, hc, hcr⟩ := safeStr_data hk
      constructor
      · exact ⟨ind, c, cr ++ [':', ' '] ++ str.data, le_refl _, hc, by simp [hd]⟩
      · intro x hx
        simp only [List.append_assoc] at hx
        refine chars_cases (safeStr_all hk) ?_ hx
        intro y hy
        simp only [List.cons_append, List.nil_append, List.mem_cons] at hy
        rcases hy with rfl | rfl | hy
        · exact Or.inr (Or.inl rfl)
        · exact Or.inl rfl
        · exact Or.inr (Or.inr (safeStr_all hstr y hy))
    · exact ih hrest line hline
  | case3 ind k rest ih =>
    obtain ⟨-, hv, -⟩ := plainSafeEntries_cons_iff hps
    exact absurd (plainSafeVal_m hv).1 (by simp)
  | case4 ind k e es rest ih1 ih2 =>
    obtain ⟨hk, hv, hrest⟩ := plainSafeEntries_cons_iff hps
    have hinner := (plainSafeVal_m hv).2
    intro line hline
    simp only [dumpEntries, List.mem_cons, List.mem_append] at hline
    rcases hline with rfl | hline | hline
    · obtain ⟨c, cr, hd, hc, hcr⟩ := safeStr_data hk
      constructor
      · exact ⟨ind, c, cr ++ [':'], le_refl _, hc, by simp [hd]⟩
      · intro x hx
        simp only [List.append_assoc] at hx
        refine chars_cases (safeStr_all hk) ?_ hx
        intro y hy
        simp only [List.mem_singleton] at hy
        subst hy
        exact Or.inr (Or.inl rfl)
    · obtain ⟨⟨n, c, r, hn, hc, hl⟩, hchars⟩ := ih1 hinner line hline
      exact ⟨⟨n, c, r, by omega, hc, hl⟩, hchars⟩
    · exact ih2 hrest line hline

/-- Emission of a non-empty entry list is non-empty. -/
theorem dumpEntries_ne_nil (ind : Nat) (e : String × Val) (l : Doc) :
    dumpEntries ind (e :: l) ≠ [] := by
  obtain ⟨k, v⟩ := e
  cases v with
  | s str => simp [dumpEntries]
  | m entries => cases entries <;> simp [dumpEntries]

/-- The first emitted line of a non-empty plain-safe entry list has exactly
`ind` leading spaces. -/
theorem head_leadingSpaces (ind : Nat) (k : String) (v : Val) (l : Doc)
    (hk : safeStr k = true) :
    ∀ line rest, dumpEntries ind ((k, v) :: l) = line :: rest →
      leadingSpaces line = ind := by
  intro line rest heq
  obtain ⟨c, cr, hd, hc, _⟩ := safeStr_data hk
  cases v with
  | s str =>
    simp only [dumpEntries, List.cons.injEq] at heq
    rw [← heq.1, hd]
    simpa using leadingSpaces_indent ind c (cr ++ [':', ' '] ++ str.data) (safeChar_ne_space hc)
  | m entries =>
    cases entries with
    | nil =>
      simp only [dumpEntries, List.cons.injEq] at heq
      rw [← heq.1, hd]
      simpa using leadingSpaces_indent ind c (cr ++ [':', ' ', lbrace, rbrace])
        (safeChar_ne_space hc)
    | cons e es =>
      simp only [dumpEntries, List.cons.injEq] at heq
      rw [← heq.1, hd]
      simpa using leadingSpaces_indent ind c (cr ++ [':']) (safeChar_ne_space hc)

end DumpInjective

theorem colon_not_mem {s : String} (h : safeStr s = true) : ':' ∉ s.data :=
  fun hc => absurd (safeStr_all h ':' hc) (by decide)

/-- Block-style emission is injective on plain-safe entry lists: the
indentation structure, the colon separators and the absence of unsafe
characters in keys and scalars let the lines be parsed back unambiguously. -/
theorem dumpEntries_inj (ind : Nat) (l1 : Doc) : ∀ l2 : Doc,
    plainSafeEntries l1 = true → plainSafeEntries l2 = true →
    dumpEntries ind l1 = dumpEntries ind l2 → l1 = l2 := by
  induction ind, l1 using dumpEntries.induct with
  | case1 ind =>
    intro l2 _ h2 heq
    cases l2 with
    | nil => rfl
    | cons e r =>
      rw [dumpEntries] at heq
      exact absurd heq.symm (dumpEntries_ne_nil ind e r)
  | case2 ind k str rest ih =>
    intro l2 h1 h2 heq
    obtain ⟨hk, hv, hrest⟩ := plainSafeEntries_cons_iff h1
    have hstr := plainSafeVal_s hv
    cases l2 with
    | nil =>
      rw [dumpEntries] at heq
      exact absurd heq (dumpEntries_ne_nil ind _ rest)
    | cons e2 r2 =>
      obtain ⟨k2, v2⟩ := e2
      obtain ⟨hk2, hv2, hr2⟩ := plainSafeEntries_cons_iff h2
      cases v2 with
      | s str2 =>
        simp only [dumpEntries, List.cons.injEq] at heq
        obtain ⟨hline, htail⟩ := heq
        simp only [List.append_assoc, List.cons_append, List.nil_append] at hline
        have hline' := List.append_cancel_left hline
        have hsplit := append_marker_inj ':' _ _ _ _ (colon_not_mem hk) (colon_not_mem hk2) hline'
        obtain ⟨hkd, hrest'⟩ := hsplit
        simp only [List.cons.injEq] at hrest'
        rw [String.ext hkd, String.ext hrest'.2, ih r2 hrest hr2 htail]
      | m entries2 =>
        cases entries2 with
        | nil => exact absurd (plainSafeVal_m hv2).1 (by simp)
        | cons f fs =>
          simp only [dumpEntries, List.cons.injEq] at heq
          obtain ⟨hline, -⟩ := heq
          simp only [List.append_assoc, List.cons_append, List.nil_append] at hline
          have hline' := List.append_cancel_left hline
          have hsplit := append_marker_inj ':' _ _ _ _ (colon_not_mem hk)
            (colon_not_mem hk2) hline'
          exact absurd hsplit.2 (by simp)
  | case3 ind k rest ih =>
    intro l2 h1 _ _
    obtain ⟨-, hv, -⟩ := plainSafeEntries_cons_iff h1
    exact absurd (plainSafeVal_m hv).1 (by simp)
  | case4 ind k e es rest ih1 ih2 =>
    intro l2 h1 h2 heq
    obtain ⟨hk, hv, hrest⟩ := plainSafeEntries_cons_iff h1
    have hinner := (plainSafeVal_m hv).2
    cases l2 with
    | nil =>
      rw [dumpEntries] at heq
      exact absurd heq (dumpEntries_ne_nil ind _ _)
    | cons e2 r2 =>
      obtain ⟨k2, v2⟩ := e2
      obtain ⟨hk2, hv2, hr2⟩ := plainSafeEntries_cons_iff h2
      cases v2 with
      | s str2 =>
        simp only [dumpEntries, List.cons.injEq] at heq
        obtain ⟨hline, -⟩ := heq
        simp only [List.append_assoc, List.cons_append, List.nil_append] at hline
        have hline' := List.append_cancel_left hline
        have hsplit := append_marker_inj ':' _ _ _ _ (colon_not_mem hk)
          (colon_not_mem hk2) hline'
        exact absurd hsplit.2 (by simp)
      | m entries2 =>
        cases entries2 with
        | nil => exact absurd (plainSafeVal_m hv2).1 (by simp)
        | cons f fs =>
          have hinner2 := (plainSafeVal_m hv2).2
          simp only [dumpEntries, List.cons.injEq] at heq
          obtain ⟨hline, htail⟩ := heq
          simp only [List.append_assoc, List.cons_append, List.nil_append] at hline
          have hline' := List.append_cancel_left hline
          have hsplit := append_marker_inj ':' _ _ _ _ (colon_not_mem hk)
            (colon_not_mem hk2) hline'
          have hkeq : k = k2 := String.ext hsplit.1
          have hB : ∀ (r : Doc), plainSafeEntries r = true →
              ∀ h t, dumpEntries ind r = h :: t → ¬ (ind + 1 ≤ leadingSpaces h) := by
            intro r hr h t hrt
            cases r with
            | nil => rw [dumpEntries] at hrt; exact absurd hrt (by simp)
            | cons er rr =>
              obtain ⟨kr, vr⟩ := er
              have hkr := (plainSafeEntries_cons_iff hr).1
              have := head_leadingSpaces ind kr vr rr hkr h t hrt
              omega
          have hA : ∀ (m : Doc), plainSafeEntries m = true →
              ∀ x ∈ dumpEntries (ind + 2) m, ind + 1 ≤ leadingSpaces x := by
            intro m hm x hx
            obtain ⟨⟨n, c, r, hn, hc, hl⟩, -⟩ := mem_dumpEntries (ind + 2) m hm x hx
            rw [hl, leadingSpaces_indent n c r (safeChar_ne_space hc)]
            omega
          have hsplit2 := append_split_pred (fun line => ind + 1 ≤ leadingSpaces line)
            _ _ _ _ htail (hA _ hinner) (hA _ hinner2) (hB rest hrest) (hB r2 hr2)
          rw [hkeq, ih1 (f :: fs) hinner hinner2 hsplit2.1, ih2 r2 hrest hr2 hsplit2.2]

/-- Newline-joined flattening is injective on newline-free lines. -/
theorem flat_newline_inj :
    ∀ ls1 ls2 : List (List Char),
      (∀ l ∈ ls1, '\n' ∉ l) → (∀ l ∈ ls2, '\n' ∉ l) →
      ls1.flatMap (fun l => l ++ ['\n']) = ls2.flatMap (fun l => l ++ ['\n']) →
      ls1 = ls2 := by
  intro ls1
  induction ls1 with
  | nil =>
    intro ls2 _ _ heq
    cases ls2 with
    | nil => rfl
    | cons l2 t2 => simp at heq
  | cons l1 t1 ih =>
    intro ls2 h1 h2 heq
    cases ls2 with
    | nil => simp at heq
    | cons l2 t2 =>
      simp only [List.flatMap_cons, List.append_assoc, List.cons_append,
        List.nil_append] at heq
      have := append_marker_inj '\n' _ _ _ _ (h1 l1 (List.mem_cons_self _ _))
        (h2 l2 (List.mem_cons_self _ _)) heq
      rw [this.1, ih t2 (fun l hl => h1 l (List.mem_cons_of_mem _ hl))
        (fun l hl => h2 l (List.mem_cons_of_mem _ hl)) this.2]

/-- Lines emitted for plain-safe entries contain no newline. -/
theorem dumpEntries_no_newline (ind : Nat) (l : Doc) (hps : plainSafeEntries l = true) :
    ∀ line ∈ dumpEntries ind l, '\n' ∉ line := by
  intro line hline hmem
  obtain ⟨-, hchars⟩ := mem_dumpEntries ind l hps line hline
  rcases hchars '\n' hmem with h | h | h
  · exact absurd h (by decide)
  · exact absurd h (by decide)
  · exact absurd h (by decide)

theorem safeChar_ne_lbrace {c : Char} (h : safeChar c = true) : c ≠ lbrace := by
  intro hc
  subst hc
  exact absurd h (by decide)

/-- A non-empty plain-safe document never serialises to the `{}` form of the
empty document. -/
theorem yamlDump_cons_ne_empty (k : String) (v : Val) (r : Doc)
    (hps : plainSafeEntries ((k, v) :: r) = true) :
    yamlDump ((k, v) :: r) ≠ yamlDump [] := by
  intro heq
  have hdata := congrArg String.data heq
  obtain ⟨line, ls, hcons⟩ := List.exists_cons_of_ne_nil (dumpEntries_ne_nil 0 (k, v) r)
  have hmem : line ∈ dumpEntries 0 ((k, v) :: r) := by rw [hcons]; exact List.mem_cons_self _ _
  obtain ⟨⟨n, c, r', -, hc, hl⟩, -⟩ := mem_dumpEntries 0 _ hps line hmem
  rw [show yamlDump ((k, v) :: r) = joinLines (dumpEntries 0 ((k, v) :: r)) from rfl,
    hcons] at hdata
  simp only [joinLines, yamlDump, List.flatMap_cons] at hdata
  rw [hl] at hdata
  cases n with
  | zero =>
    simp only [indentChars, List.replicate, List.nil_append, List.cons_append] at hdata
    have : c = lbrace := by
      have := congrArg List.head? hdata
      simpa using this
    exact absurd this.symm (Ne.symm (safeChar_ne_lbrace hc))
  | succ m =>
    simp only [indentChars, List.replicate_succ, List.cons_append] at hdata
    have : ' ' = lbrace := by
      have := congrArg List.head? hdata
      simpa using this
    exact absurd this (by decide)

/-- The model of `ordered_dump` is injective on plain-safe documents: two
plain-safe documents with the same canonical bytes are equal.  This is the
formal content of PyYAML round-tripping on this fragment. -/
theorem yamlDump_inj (d1 d2 : Doc) (h1 : plainSafeEntries d1 = true)
    (h2 : plainSafeEntries d2 = true) (heq : yamlDump d1 = yamlDump d2) : d1 = d2 := by
  cases d1 with
  | nil =>
    cases d2 with
    | nil => rfl
    | cons e2 r2 =>
      obtain ⟨k2, v2⟩ := e2
      exact absurd heq.symm (yamlDump_cons_ne_empty k2 v2 r2 h2)
  | cons e1 r1 =>
    obtain ⟨k1, v1⟩ := e1
    cases d2 with
    | nil => exact absurd heq (yamlDump_cons_ne_empty k1 v1 r1 h1)
    | cons e2 r2 =>
      obtain ⟨k2, v2⟩ := e2
      have hdata := congrArg String.data heq
      simp only [yamlDump, joinLines] at hdata
      have := flat_newline_inj _ _ (dumpEntries_no_newline 0 _ h1)
        (dumpEntries_no_newline 0 _ h2) hdata
      exact dumpEntries_inj 0 _ _ h1 h2 this

/-!
## Key-sorted compact JSON (`tag_protect_unsigned.canonical`)

The gate fallback canonicalises with
`json.dumps(obj, ensure_ascii=False, separators=(",", ":"), sort_keys=True)`:
all mapping keys sorted recursively, no whitespace, double-quoted strings.
-/

/-- Lower-case hexadecimal digit. -/
def hexDigit (n : Nat) : Char :=
  if n < 10 then Char.ofNat (48 + n) else Char.ofNat (87 + n)

/-- JSON string escaping as performed by `json.dumps`. -/
def jsonEscapeChar (c : Char) : List Char :=
  if c = Char.ofNat 34 then ['\\', Char.ofNat 34]
  else if c = '\\' then ['\\', '\\']
  else if c = '\n' then ['\\', 'n']
  else if c = '\t' then ['\\', 't']
  else if c = Char.ofNat 13 then ['\\', 'r']
  else if c = Char.ofNat 8 then ['\\', 'b']
  else if c = Char.ofNat 12 then ['\\', 'f']
  else if c.toNat < 32 then
    ['\\', 'u', '0', '0', hexDigit (c.toNat / 16), hexDigit (c.toNat % 16)]
  else [c]

/-- A double-quoted JSON string literal. -/
def jsonQuote (s : String) : List Char :=
  Char.ofNat 34 :: s.data.flatMap jsonEscapeChar ++ [Char.ofNat 34]

/-- Insert an entry into a key-sorted entry list. -/
def insertEntry (e : String × Val) : List (String × Val) → List (String × Val)
  | [] => [e]
  | f :: rest => if e.1 ≤ f.1 then e :: f :: rest else f :: insertEntry e rest

/-- Sort an entry list by key (Python `sort_keys=True`; keys are unique in
any dict, so any comparison sort produces this order). -/
def insertionSortByKey : List (String × Val) → List (String × Val)
  | [] => []
  | e :: rest => insertEntry e (insertionSortByKey rest)

mutual

/-- Recursively sort every mapping of a value by key. -/
def sortVal : Val → Val
  | .s str => .s str
  | .m l => .m (insertionSortByKey (sortValEntries l))

/-- Recursively sort the values of an entry list. -/
def sortValEntries : List (String × Val) → List (String × Val)
  | [] => []
  | (k, v) :: rest => (k, sortVal v) :: sortValEntries rest

end

mutual

/-- Compact JSON emission of an (already sorted) value. -/
def jsonRaw : Val → List Char
  | .s str => jsonQuote str
  | .m l => lbrace :: jsonRawEntries l ++ [rbrace]

/-- Compact JSON emission of an (already sorted) entry list, comma
separated. -/
def jsonRawEntries : List (String × Val) → List Char
  | [] => []
  | [(k, v)] => jsonQuote k ++ ':' :: jsonRaw v
  | (k, v) :: e :: rest => jsonQuote k ++ ':' :: jsonRaw v ++ ',' :: jsonRawEntries (e :: rest)

end

namespace TagProtect

/-- Model of `canonical(obj)` in `tag_protect_unsigned.py` (fallback
verifier): `json.dumps(obj, ensure_ascii=False, separators=(",", ":"),
sort_keys=True)` applied to a mapping. -/
def canonical (d : Doc) : String :=
  String.mk (jsonRaw (sortVal (Val.m d)))

end TagProtect

namespace SignManifest

/-- Model of `remove_signature(manifest)` in `tools/sign_manifest.py`
(lines 62–73), as the value of the document it returns.  The source
shallow-copies the top level, deletes `signing.signature.value` when
present, then collapses a now-empty `signature` and a now-empty `signing`.
An `.error` result models an uncaught Python `TypeError` when the
`signing` or `signature` field holds a scalar (string indexing/deletion);
the string-membership tests mirror Python substring semantics of `in`. -/
def remove_signature (manifest : Doc) : Except String Doc :=
  match lookupKey "signing" manifest with
  | none => .ok manifest
  | some (Val.m sg) =>
    match lookupKey "signature" sg with
    | none => .ok manifest
    | some (Val.m sig) =>
        match lookupKey "value" sig with
        | some _ =>
          let sig' := eraseKey "value" sig
          if sig'.isEmpty then
            let sg' := eraseKey "signature" sg
            .ok (if sg'.isEmpty then eraseKey "signing" manifest
                 else setKey "signing" (Val.m sg') manifest)
          else
            .ok (setKey "signing" (Val.m (setKey "signature" (Val.m sig') sg)) manifest)
        | none =>
          if sig.isEmpty then
            let sg' := eraseKey "signature" sg
            .ok (if sg'.isEmpty then eraseKey "signing" manifest
                 else setKey "signing" (Val.m sg') manifest)
          else .ok manifest
    | some (Val.s str) =>
        if containsSub "value" str then .error "TypeError"
        else if str = "" then
          let sg' := eraseKey "signature" sg
          .ok (if sg'.isEmpty then eraseKey "signing" manifest
               else setKey "signing" (Val.m sg') manifest)
        else .ok manifest
  | some (Val.s str) =>
      if containsSub "signature" str then .error "TypeError"
      else .ok manifest

/-- The post-state of the *caller's* document after `remove_signature`:
`manifest.copy()` copies only the top level, so the deletions inside the
shared nested `signature` and `signing` dicts mutate the argument, while
the final `del manifest['signing']` only affects the copy.  No mutation
happens on the paths that raise `TypeError` before any `del`. -/
def remove_signature_eff (manifest : Doc) : Doc :=
  match lookupKey "signing" manifest with
  | some (Val.m sg) =>
    match lookupKey "signature" sg with
    | some (Val.m sig) =>
        match lookupKey "value" sig with
        | some _ =>
          let sig' := eraseKey "value" sig
          if sig'.isEmpty then
            setKey "signing" (Val.m (eraseKey "signature" sg)) manifest
          else
            setKey "signing" (Val.m (setKey "signature" (Val.m sig') sg)) manifest
        | none =>
          if sig.isEmpty then setKey "signing" (Val.m (eraseKey "signature" sg)) manifest
          else manifest
    | some (Val.s str) =>
        if containsSub "value" str then manifest
        else if str = "" then setKey "signing" (Val.m (eraseKey "signature" sg)) manifest
        else manifest
    | none => manifest
  | _ => manifest

/-- Model of `canonical_payload(manifest)` in `tools/sign_manifest.py`
(lines 76–79): `ordered_dump(remove_signature(manifest)).encode("utf-8")`. -/
def canonical_payload (manifest : Doc) : Except String String :=
  (remove_signature manifest).map yamlDump

/-- Model of `insert_signature(manifest, signature)` in
`tools/sign_manifest.py` (lines 111–119): create `signing` and
`signing.signature` mappings when absent, then set
`signing.signature.value`.  `.error` models the `TypeError` raised when
`signing` or `signature` holds a scalar. -/
def insert_signature (manifest : Doc) (signature : String) : Except String Doc :=
  match lookupKey "signing" manifest with
  | some (Val.s _) => .error "TypeError"
  | some (Val.m sg) =>
    match lookupKey "signature" sg with
    | some (Val.s _) => .error "TypeError"
    | some (Val.m sigm) =>
        .ok (setKey "signing"
          (Val.m (setKey "signature" (Val.m (setKey "value" (Val.s signature) sigm)) sg))
          manifest)
    | none =>
        .ok (setKey "signing"
          (Val.m (sg ++ [("signature", Val.m [("value", Val.s signature)])])) manifest)
  | none =>
      .ok (manifest ++ [("signing", Val.m [("signature", Val.m [("value", Val.s signature)])])])

/-- Outcome of running `sign_manifest`. -/
inductive SignResult where
  | notFound
  | signError
  | crash (msg : String)
  | ok (signed : Doc)
deriving DecidableEq, Repr

/-- Model of `sign_manifest(manifest_path, secret_key_path)` in
`tools/sign_manifest.py` (lines 122–160), default output path (overwrite in
place).  `manifest?` is the content of the manifest file (`none` when the
path does not exist); `keyExists` is the existence of the secret key path;
`signD` is the external `minisign -S` call on the payload bytes (`none`
models a `CalledProcessError` or missing binary, both of which exit before
any write).  Returns the result, the manifest file content after the call,
and whether the external signing primitive was invoked. -/
def sign_manifest (signD : String → Option String)
    (manifest? : Option Doc) (keyExists : Bool) :
    SignResult × Option Doc × Bool :=
  match manifest? with
  | none => (.notFound, none, false)
  | some m =>
    if !keyExists then (.notFound, some m, false)
    else
      match canonical_payload m with
      | .error e => (.crash e, some m, false)
      | .ok payload =>
        match signD payload with
        | none => (.signError, some m, true)
        | some sig =>
          match insert_signature (remove_signature_eff m) sig with
          | .error e => (.crash e, some m, true)
          | .ok signed => (.ok signed, some signed, true)

end SignManifest

namespace VerifyManifest

/-- `tools/verify_manifest.py` (lines 69–80) contains a byte-identical copy
of the signer's `remove_signature`; it is modelled by the same function. -/
def remove_signature : Doc → Except String Doc := SignManifest.remove_signature

/-- `tools/verify_manifest.py` (lines 83–86) contains a byte-identical copy
of the signer's `canonical_payload`. -/
def canonical_payload : Doc → Except String String := SignManifest.canonical_payload

/-- Model of `extract_signature(manifest)` in `tools/verify_manifest.py`
(lines 61–67): `manifest['signing']['signature']['value']` with only
`KeyError` caught (returning `None`).  Indexing a scalar raises an uncaught
`TypeError`, modelled as `.error`. -/
def extract_signature (manifest : Doc) : Except String (Option Val) :=
  match lookupKey "signing" manifest with
  | none => .ok none
  | some (Val.s _) => .error "TypeError"
  | some (Val.m sg) =>
    match lookupKey "signature" sg with
    | none => .ok none
    | some (Val.s _) => .error "TypeError"
    | some (Val.m sig) =>
      match lookupKey "value" sig with
      | none => .ok none
      | some v => .ok (some v)

/-- Model of `verify_manifest(manifest_path, public_key_path)` in
`tools/verify_manifest.py` (lines 133–160) composed with
`verify_with_minisign` (lines 89–130).  `manifest?` is the manifest file
content (`none`: path missing), `pubkeyExists` the existence of the public
key path, and `verifyD payload sig` the outcome of the external
`minisign -V` call.  `.ok b` is the boolean the function returns; `.error`
models an uncaught exception (`TypeError` on ill-typed documents, e.g. a
mapping-valued signature written to the temporary signature file). -/
def verify_manifest (verifyD : String → String → Bool) (pubkeyExists : Bool)
    (manifest? : Option Doc) : Except String Bool :=
  match manifest? with
  | none => .ok false
  | some m =>
    match extract_signature m with
    | .error e => .error e
    | .ok none => .ok false
    | .ok (some v) =>
      if !(isTruthy v) then .ok false
      else
        match canonical_payload m with
        | .error e => .error e
        | .ok payload =>
          if !pubkeyExists then .ok false
          else
            match v with
            | .s sigStr => .ok (verifyD payload sigStr)
            | .m _ => .error "TypeError"

/-- Whether `verify_manifest` reaches the external `minisign -V` invocation
(the `subprocess.run` inside `verify_with_minisign`): it does exactly when a
truthy signature was extracted, the payload was computed, the public key
exists and the signature value is a string that can be written to the
temporary file. -/
def verify_invokes_external (pubkeyExists : Bool) (manifest? : Option Doc) : Bool :=
  match manifest? with
  | none => false
  | some m =>
    match extract_signature m with
    | .error _ => false
    | .ok none => false
    | .ok (some v) =>
      if !(isTruthy v) then false
      else
        match canonical_payload m with
        | .error _ => false
        | .ok _ =>
          if !pubkeyExists then false
          else
            match v with
            | .s _ => true
            | .m _ => false

end VerifyManifest

namespace TagProtect

/-- The placeholder sentinel `"${MINISIGN_SIG}"` recognised by the gate. -/
def PLACEHOLDER : String := "$\x7bMINISIGN_SIG\x7d"

/-- `data.get("doc_index", {})` followed by attribute access on the result:
a scalar raises `AttributeError` (uncaught) at `doc_index.get`. -/
def docIndexOf (data : Doc) : Except String Doc :=
  match lookupKey "doc_index" data with
  | some (Val.m l) => .ok l
  | some (Val.s _) => .error "AttributeError"
  | none => .ok []

/-- `doc_index.get("signing", {})` followed by `.get` on the result. -/
def signingOf (doc_index : Doc) : Except String Doc :=
  match lookupKey "signing" doc_index with
  | some (Val.m l) => .ok l
  | some (Val.s _) => .error "AttributeError"
  | none => .ok []

/-- `signing.get("signature", {})` followed by `.get` on the result. -/
def signatureObjOf (signing : Doc) : Except String Doc :=
  match lookupKey "signature" signing with
  | some (Val.m l) => .ok l
  | some (Val.s _) => .error "AttributeError"
  | none => .ok []

/-- Lines 39–44 of `tag_protect_unsigned.py`: deep-copy `doc_index` (JSON
round trip), delete `signing.signature.value` when all three levels are
present, and canonicalise the result as key-sorted compact JSON.  (When the
fallback verifier reaches this point, `signing` and `signature` are
mappings or absent — scalar values crashed earlier at `.get`.) -/
def canonical_payload_within (doc_index : Doc) : String :=
  let payload_data : Doc :=
    match lookupKey "signing" doc_index with
    | some (Val.m sg) =>
      match lookupKey "signature" sg with
      | some (Val.m sig) =>
        if hasKey "value" sig then
          setKey "signing" (Val.m (setKey "signature" (Val.m (eraseKey "value" sig)) sg))
            doc_index
        else doc_index
      | _ => doc_index
    | _ => doc_index
  canonical payload_data

/-- The canonical payload bytes the gate's built-in verifier derives from a
whole manifest document: the key-sorted compact JSON of the `doc_index`
sub-object (absent: `{}`) with `signing.signature.value` removed. -/
def canonical_payload_of (data : Doc) : String :=
  match lookupKey "doc_index" data with
  | some (Val.m l) => canonical_payload_within l
  | _ => canonical_payload_within []

/-- Model of the fallback `verify_manifest(manifest_path, pubkey_path)` in
`tag_protect_unsigned.py` (lines 24–78).  `data` is the parsed YAML
document; `pubkey` is `none` when no public-key path is supplied and
`some exists` otherwise; `vD payload sig` is the external `minisign -V`
outcome.  Formatted message suffixes (interpolated paths, stderr) are
elided; a mapping-valued signature in the public-key branch raises
`TypeError` inside the `try`, caught by `except Exception` and reported as
a verification error. -/
def verify_manifest (vD : String → String → Bool) (pubkey : Option Bool)
    (data : Doc) : Except String (Bool × String) := do
  let doc_index ← docIndexOf data
  let signing ← signingOf doc_index
  let sigobj ← signatureObjOf signing
  let signature_value : Val := (lookupKey "value" sigobj).getD (Val.s "")
  if !(isTruthy signature_value) then
    pure (false, "No signature found in manifest")
  else
    let payload := canonical_payload_within doc_index
    match pubkey with
    | some pkExists =>
      if !pkExists then pure (false, "Public key not found")
      else
        match signature_value with
        | .s sigStr =>
          pure (if vD payload sigStr then (true, "Signature verified successfully")
                else (false, "Signature verification failed"))
        | .m _ => pure (false, "Verification error")
    | none =>
      if isTruthy signature_value && signature_value ≠ Val.s PLACEHOLDER then
        pure (true, "Signature present")
      else
        pure (false, "Signature is placeholder or empty")

/-- One per-manifest result row of the gate. -/
structure GateEntry where
  manifest : String
  success : Bool
  message : String
deriving DecidableEq, Repr

/-- Model of `check_tag_protection(manifest_dir, pubkey_path)` in
`tag_protect_unsigned.py` (lines 81–114).  `manifests` is the list of
discovered `*.yaml`/`*.yml` paths (the glob results); `vf name` is the
per-manifest verifier outcome `(success, message)`.  An empty discovery
returns failure with the single not-found message; otherwise every
manifest is verified in sorted order, one result row each, and the overall
flag is the conjunction of the per-manifest successes. -/
def check_tag_protection (vf : String → Bool × String) (manifestDir : String)
    (manifests : List String) : Bool × (String ⊕ List GateEntry) :=
  if manifests.isEmpty then
    (false, .inl ("No manifests found in " ++ manifestDir))
  else
    let sorted := manifests.mergeSort (fun a b => decide (a ≤ b))
    let results := sorted.map (fun name => GateEntry.mk name (vf name).1 (vf name).2)
    (results.all (fun r => r.success), .inr results)

end TagProtect

namespace HashInventory

/-- Split a character list at slashes: the path components `p.parts`. -/
def splitOnSlash : List Char → List (List Char)
  | [] => [[]]
  | c :: rest =>
    match splitOnSlash rest with
    | [] => [[]]
    | seg :: segs => if c = '/' then [] :: seg :: segs else (c :: seg) :: segs

/-- The fixed deny filter of `hash_inventory.py` (lines 15–17):
`__pycache__` path components and the `.pyc` suffix are skipped
(`p.suffix == ".pyc"`; for these paths the suffix test coincides with the
`.pyc` ending test). -/
def isSkipped (p : String) : Bool :=
  (splitOnSlash p.data).contains "__pycache__".data ||
    List.isSuffixOf ".pyc".data p.data

/-- `fnmatch.fnmatch` on the fragment of patterns the tool uses: literal
characters plus the `*` and `?` wildcards (`*` matches any character run,
slashes included; character classes are not modelled). -/
def globMatch : List Char → List Char → Bool
  | [], [] => true
  | [], _ :: _ => false
  | '*' :: ps, s =>
      globMatch ps s ||
        (match s with
         | [] => false
         | _ :: s' => globMatch ('*' :: ps) s')
  | '?' :: _, [] => false
  | '?' :: ps, _ :: s => globMatch ps s
  | _ :: _, [] => false
  | p :: ps, c :: s => p = c && globMatch ps s
termination_by p s => (p.length, s.length)

/-- `fnmatch(str(p).replace("\\", "/"), pat)` with slash-normalised paths. -/
def fnmatch (path pattern : String) : Bool :=
  globMatch pattern.data path.data

/-- Lines 12–19 of `hash_inventory.py`: for each include pattern, walk the
tree and keep non-skipped files matching the pattern.  `tree` is the file
list `root.rglob("*")` yields (directories are excluded by `is_file`); a
file is appended once per pattern it matches. -/
def enumerateFiles (includePats : List String) (tree : List String) : List String :=
  includePats.flatMap (fun pat =>
    tree.filter (fun p => !(isSkipped p) && fnmatch p pat))

/-- Lines 21–27: sort the collected files by path and digest each one.
`digest p` is the streamed SHA-256 of the file's bytes as raw digest bytes
(the hex encoding stored in the JSON entry and decoded again by
`bytes.fromhex` is a bijection and is elided). -/
def entriesOf (digest : String → List Nat) (includePats tree : List String) :
    List (String × List Nat) :=
  ((enumerateFiles includePats tree).mergeSort (fun a b => decide (a ≤ b))).map
    (fun p => (p, digest p))

/-- One level of the Merkle fold (lines 34–38): hash adjacent pairs; an odd
trailing node is paired with itself. -/
def merklePass (H : List Nat → List Nat) : List (List Nat) → List (List Nat)
  | [] => []
  | [a] => [H (a ++ a)]
  | a :: b :: rest => H (a ++ b) :: merklePass H rest

theorem merklePass_length (H : List Nat → List Nat) (l : List (List Nat)) :
    (merklePass H l).length = (l.length + 1) / 2 := by
  induction l using merklePass.induct H with
  | case1 => simp [merklePass]
  | case2 a => simp [merklePass]
  | case3 a b rest ih =>
    simp [merklePass, ih]
    omega

/-- The `while len(level) > 1` loop (lines 33–39). -/
def merkleLoop (H : List Nat → List Nat) (level : List (List Nat)) : List Nat :=
  match level with
  | [] => []
  | [a] => a
  | a :: b :: rest => merkleLoop H (merklePass H (a :: b :: rest))
termination_by level.length
decreasing_by
  simp [merklePass_length]
  omega

/-- Lines 29–40: the Merkle root of the leaf digests, `H` the SHA-256
digest over raw bytes; the empty leaf list yields the digest of the empty
byte string. -/
def merkleRoot (H : List Nat → List Nat) (leaves : List (List Nat)) : List Nat :=
  if leaves.isEmpty then H [] else merkleLoop H leaves

end HashInventory

section WellFormed

theorem hasKey_eq_false {k : String} {l : Doc} :
    hasKey k l = false ↔ lookupKey k l = none := by
  cases h : lookupKey k l <;> simp [hasKey, h]

theorem isEmpty_false_of_ne_nil {α : Type} {l : List α} (h : l ≠ []) :
    l.isEmpty = false := by
  cases l with
  | nil => exact absurd rfl h
  | cons a t => rfl

/-- A well-formed manifest in the sense of the spec's data model (§3): the
top level is a mapping with unique keys whose `signing` section, when
present, is a non-empty mapping holding the signature structure (an empty
`signing` mapping carries no `signature.value` and is not a manifest
signing section), and whose `signature` field, when present, is a mapping.
-/
def wellFormedManifest (m : Doc) : Bool :=
  decide (NodupKeys m) &&
  (match lookupKey "signing" m with
   | none => true
   | some (Val.s _) => false
   | some (Val.m sg) =>
     !sg.isEmpty && decide (NodupKeys sg) &&
     (match lookupKey "signature" sg with
      | none => true
      | some (Val.s _) => false
      | some (Val.m sig) => decide (NodupKeys sig)))

/-- Signing a well-formed manifest and re-reading it reproduces the
payload: inserting the fresh signature into the post-`canonical_payload`
state of the caller's document yields a document that strips back to
exactly the payload document that was signed, with the fresh signature
extractable. -/
theorem roundtrip_core (m : Doc) (s : String) (hwf : wellFormedManifest m = true) :
    ∃ d', SignManifest.insert_signature (SignManifest.remove_signature_eff m) s = .ok d' ∧
      SignManifest.remove_signature d' = SignManifest.remove_signature m ∧
      VerifyManifest.extract_signature d' = .ok (some (Val.s s)) := by
  have hnd : NodupKeys m := by
    have := (bAnd hwf).1
    exact of_decide_eq_true this
  have hwf2 := (bAnd hwf).2
  cases hsg : lookupKey "signing" m with
  | none =>
    -- Case A: no signing section at all.
    have hhk : hasKey "signing" m = false := hasKey_eq_false.mpr hsg
    refine ⟨m ++ [("signing", Val.m [("signature", Val.m [("value", Val.s s)])])], ?_, ?_, ?_⟩
    · simp [SignManifest.insert_signature, SignManifest.remove_signature_eff, hsg]
    · have hlk : lookupKey "signing"
          (m ++ [("signing", Val.m [("signature", Val.m [("value", Val.s s)])])]) =
          some (Val.m [("signature", Val.m [("value", Val.s s)])]) := by
        rw [lookupKey_append_right hhk]
        simp [lookupKey_cons]
      simp [SignManifest.remove_signature, hsg, hlk, lookupKey_cons, eraseKey_cons,
        eraseKey_append, eraseKey_of_not_has hhk]
    · have hlk : lookupKey "signing"
          (m ++ [("signing", Val.m [("signature", Val.m [("value", Val.s s)])])]) =
          some (Val.m [("signature", Val.m [("value", Val.s s)])]) := by
        rw [lookupKey_append_right hhk]
        simp [lookupKey_cons]
      simp [VerifyManifest.extract_signature, hlk, lookupKey_cons]
  | some vsg =>
    cases vsg with
    | s str =>
      rw [hsg] at hwf2
      simp at hwf2
    | m sg =>
      rw [hsg] at hwf2
      have hsgne : sg.isEmpty = false := by
        have := (bAnd (bAnd hwf2).1).1
        simpa using this
      have hndsg : NodupKeys sg := of_decide_eq_true (bAnd (bAnd hwf2).1).2
      have hwf3 := (bAnd hwf2).2
      cases hsig : lookupKey "signature" sg with
      | none =>
        -- Case B1: signing section without a signature field.
        have hhk : hasKey "signature" sg = false := hasKey_eq_false.mpr hsig
        refine ⟨setKey "signing"
          (Val.m (sg ++ [("signature", Val.m [("value", Val.s s)])])) m, ?_, ?_, ?_⟩
        · simp [SignManifest.insert_signature, SignManifest.remove_signature_eff, hsg, hsig]
        · have hlk : lookupKey "signing" (setKey "signing"
              (Val.m (sg ++ [("signature", Val.m [("value", Val.s s)])])) m) =
              some (Val.m (sg ++ [("signature", Val.m [("value", Val.s s)])])) :=
            lookupKey_setKey_self
          have hlk2 : lookupKey "signature" (sg ++ [("signature", Val.m [("value", Val.s s)])]) =
              some (Val.m [("value", Val.s s)]) := by
            rw [lookupKey_append_right hhk]
            simp [lookupKey_cons]
          simp [SignManifest.remove_signature, hsg, hsig, hlk, hlk2, lookupKey_cons,
            eraseKey_cons, eraseKey_append, eraseKey_of_not_has hhk, hsgne, setKey_setKey,
            setKey_self hnd hsg]
        · have hlk : lookupKey "signing" (setKey "signing"
              (Val.m (sg ++ [("signature", Val.m [("value", Val.s s)])])) m) =
              some (Val.m (sg ++ [("signature", Val.m [("value", Val.s s)])])) :=
            lookupKey_setKey_self
          have hlk2 : lookupKey "signature" (sg ++ [("signature", Val.m [("value", Val.s s)])]) =
              some (Val.m [("value", Val.s s)]) := by
            rw [lookupKey_append_right hhk]
            simp [lookupKey_cons]
          simp [VerifyManifest.extract_signature, hlk, hlk2, lookupKey_cons]
      | some vsig =>
        cases vsig with
        | s str =>
          rw [hsig] at hwf3
          simp at hwf3
        | m sig =>
          rw [hsig] at hwf3
          have hndsig : NodupKeys sig := of_decide_eq_true hwf3
          cases hval : lookupKey "value" sig with
          | none =>
            by_cases hsignil : sig = []
            · -- Case B3a(i): empty signature mapping, no value key.
              subst hsignil
              have heff : SignManifest.remove_signature_eff m =
                  setKey "signing" (Val.m (eraseKey "signature" sg)) m := by
                simp [SignManifest.remove_signature_eff, hsg, hsig, hval]
              have hlkeff : lookupKey "signing" (SignManifest.remove_signature_eff m) =
                  some (Val.m (eraseKey "signature" sg)) := by
                rw [heff]
                exact lookupKey_setKey_self
              have hhk' : hasKey "signature" (eraseKey "signature" sg) = false :=
                hasKey_eq_false.mpr lookupKey_eraseKey_self
              refine ⟨setKey "signing" (Val.m ((eraseKey "signature" sg) ++
                [("signature", Val.m [("value", Val.s s)])])) (SignManifest.remove_signature_eff m),
                ?_, ?_, ?_⟩
              · simp [SignManifest.insert_signature, hlkeff, hasKey_eq_false.mpr
                  lookupKey_eraseKey_self, lookupKey_eraseKey_self]
              · have hlk : lookupKey "signing" (setKey "signing"
                    (Val.m ((eraseKey "signature" sg) ++
                      [("signature", Val.m [("value", Val.s s)])]))
                    (SignManifest.remove_signature_eff m)) =
                    some (Val.m ((eraseKey "signature" sg) ++
                      [("signature", Val.m [("value", Val.s s)])])) :=
                  lookupKey_setKey_self
                have hlk2 : lookupKey "signature" ((eraseKey "signature" sg) ++
                    [("signature", Val.m [("value", Val.s s)])]) =
                    some (Val.m [("value", Val.s s)]) := by
                  rw [lookupKey_append_right hhk']
                  simp [lookupKey_cons]
                simp only [SignManifest.remove_signature, hsg, hsig, hval, hlk, hlk2,
                  List.isEmpty_nil, if_pos rfl]
                rw [eraseKey_append, eraseKey_of_not_has hhk']
                simp [eraseKey_cons, heff, eraseKey_setKey, setKey_setKey, lookupKey_cons]
              · have hlk : lookupKey "signing" (setKey "signing"
                    (Val.m ((eraseKey "signature" sg) ++
                      [("signature", Val.m [("value", Val.s s)])]))
                    (SignManifest.remove_signature_eff m)) =
                    some (Val.m ((eraseKey "signature" sg) ++
                      [("signature", Val.m [("value", Val.s s)])])) :=
                  lookupKey_setKey_self
                have hlk2 : lookupKey "signature" ((eraseKey "signature" sg) ++
                    [("signature", Val.m [("value", Val.s s)])]) =
                    some (Val.m [("value", Val.s s)]) := by
                  rw [lookupKey_append_right hhk']
                  simp [lookupKey_cons]
                simp [VerifyManifest.extract_signature, hlk, hlk2, lookupKey_cons]
            · -- Case B3a(ii): non-empty signature mapping without a value key.
              have hsigne : sig.isEmpty = false := isEmpty_false_of_ne_nil hsignil
              have heff : SignManifest.remove_signature_eff m = m := by
                simp [SignManifest.remove_signature_eff, hsg, hsig, hval, hsigne]
              have hhkv : hasKey "value" sig = false := hasKey_eq_false.mpr hval
              refine ⟨setKey "signing" (Val.m (setKey "signature"
                (Val.m (sig ++ [("value", Val.s s)])) sg)) m, ?_, ?_, ?_⟩
              · rw [heff]
                simp [SignManifest.insert_signature, hsg, hsig, setKey_of_not_has hhkv]
              · have hlk : lookupKey "signing" (setKey "signing" (Val.m (setKey "signature"
                    (Val.m (sig ++ [("value", Val.s s)])) sg)) m) =
                    some (Val.m (setKey "signature" (Val.m (sig ++ [("value", Val.s s)])) sg)) :=
                  lookupKey_setKey_self
                have hlk2 : lookupKey "signature" (setKey "signature"
                    (Val.m (sig ++ [("value", Val.s s)])) sg) =
                    some (Val.m (sig ++ [("value", Val.s s)])) := lookupKey_setKey_self
                have hlk3 : lookupKey "value" (sig ++ [("value", Val.s s)]) =
                    some (Val.s s) := by
                  rw [lookupKey_append_right hhkv]
                  simp [lookupKey_cons]
                have hee : eraseKey "value" (sig ++ [("value", Val.s s)]) = sig := by
                  rw [eraseKey_append, eraseKey_of_not_has hhkv]
                  simp [eraseKey_cons]
                simp only [SignManifest.remove_signature, hsg, hsig, hval, hlk, hlk2, hlk3, hee,
                  hsigne, Bool.false_eq_true, if_false]
                simp only [setKey_setKey, setKey_self hndsg hsig, setKey_self hnd hsg]
              · have hlk : lookupKey "signing" (setKey "signing" (Val.m (setKey "signature"
                    (Val.m (sig ++ [("value", Val.s s)])) sg)) m) =
                    some (Val.m (setKey "signature" (Val.m (sig ++ [("value", Val.s s)])) sg)) :=
                  lookupKey_setKey_self
                have hlk2 : lookupKey "signature" (setKey "signature"
                    (Val.m (sig ++ [("value", Val.s s)])) sg) =
                    some (Val.m (sig ++ [("value", Val.s s)])) := lookupKey_setKey_self
                have hlk3 : lookupKey "value" (sig ++ [("value", Val.s s)]) =
                    some (Val.s s) := by
                  rw [lookupKey_append_right hhkv]
                  simp [lookupKey_cons]
                simp [VerifyManifest.extract_signature, hlk, hlk2, hlk3]
          | some v0 =>
            -- Case B3b: the signature mapping has a value key.
            by_cases hse : (eraseKey "value" sig).isEmpty
            · -- B3b(i): value is the only key of the signature mapping.
              have heff : SignManifest.remove_signature_eff m =
                  setKey "signing" (Val.m (eraseKey "signature" sg)) m := by
                simp [SignManifest.remove_signature_eff, hsg, hsig, hval, hse]
              have hhk' : hasKey "signature" (eraseKey "signature" sg) = false :=
                hasKey_eq_false.mpr lookupKey_eraseKey_self
              have hlkeff : lookupKey "signing" (SignManifest.remove_signature_eff m) =
                  some (Val.m (eraseKey "signature" sg)) := by
                rw [heff]
                exact lookupKey_setKey_self
              refine ⟨setKey "signing" (Val.m ((eraseKey "signature" sg) ++
                [("signature", Val.m [("value", Val.s s)])])) (SignManifest.remove_signature_eff m),
                ?_, ?_, ?_⟩
              · simp [SignManifest.insert_signature, hlkeff, lookupKey_eraseKey_self]
              · have hlk : lookupKey "signing" (setKey "signing"
                    (Val.m ((eraseKey "signature" sg) ++
                      [("signature", Val.m [("value", Val.s s)])]))
                    (SignManifest.remove_signature_eff m)) =
                    some (Val.m ((eraseKey "signature" sg) ++
                      [("signature", Val.m [("value", Val.s s)])])) :=
                  lookupKey_setKey_self
                have hlk2 : lookupKey "signature" ((eraseKey "signature" sg) ++
                    [("signature", Val.m [("value", Val.s s)])]) =
                    some (Val.m [("value", Val.s s)]) := by
                  rw [lookupKey_append_right hhk']
                  simp [lookupKey_cons]
                simp only [SignManifest.remove_signature, hsg, hsig, hval, hlk, hlk2,
                  lookupKey_cons, if_pos rfl, hse]
                rw [eraseKey_append, eraseKey_of_not_has hhk']
                simp only [eraseKey_cons, if_pos rfl, eraseKey_nil, List.append_nil,
                  List.isEmpty_nil, if_pos rfl]
                rw [heff]
                by_cases hE : eraseKey "signature" sg = []
                · simp [hE, eraseKey_setKey]
                · simp [hE, setKey_setKey]
              · have hlk : lookupKey "signing" (setKey "signing"
                    (Val.m ((eraseKey "signature" sg) ++
                      [("signature", Val.m [("value", Val.s s)])]))
                    (SignManifest.remove_signature_eff m)) =
                    some (Val.m ((eraseKey "signature" sg) ++
                      [("signature", Val.m [("value", Val.s s)])])) :=
                  lookupKey_setKey_self
                have hlk2 : lookupKey "signature" ((eraseKey "signature" sg) ++
                    [("signature", Val.m [("value", Val.s s)])]) =
                    some (Val.m [("value", Val.s s)]) := by
                  rw [lookupKey_append_right hhk']
                  simp [lookupKey_cons]
                simp [VerifyManifest.extract_signature, hlk, hlk2, lookupKey_cons]
            · -- B3b(ii): other keys besides value survive in the signature mapping.
              have hse' : (eraseKey "value" sig).isEmpty = false := by
                simpa using hse
              have heff : SignManifest.remove_signature_eff m =
                  setKey "signing" (Val.m (setKey "signature"
                    (Val.m (eraseKey "value" sig)) sg)) m := by
                simp [SignManifest.remove_signature_eff, hsg, hsig, hval, hse']
              have hhkv : hasKey "value" (eraseKey "value" sig) = false :=
                hasKey_eq_false.mpr lookupKey_eraseKey_self
              have hlkeff : lookupKey "signing" (SignManifest.remove_signature_eff m) =
                  some (Val.m (setKey "signature" (Val.m (eraseKey "value" sig)) sg)) := by
                rw [heff]
                exact lookupKey_setKey_self
              have hlksig : lookupKey "signature" (setKey "signature"
                  (Val.m (eraseKey "value" sig)) sg) =
                  some (Val.m (eraseKey "value" sig)) := lookupKey_setKey_self
              refine ⟨setKey "signing" (Val.m (setKey "signature"
                (Val.m ((eraseKey "value" sig) ++ [("value", Val.s s)]))
                (setKey "signature" (Val.m (eraseKey "value" sig)) sg)))
                (SignManifest.remove_signature_eff m), ?_, ?_, ?_⟩
              · simp [SignManifest.insert_signature, hlkeff, hlksig,
                  setKey_of_not_has hhkv]
              · have hlk : lookupKey "signing" (setKey "signing" (Val.m (setKey "signature"
                    (Val.m ((eraseKey "value" sig) ++ [("value", Val.s s)]))
                    (setKey "signature" (Val.m (eraseKey "value" sig)) sg)))
                    (SignManifest.remove_signature_eff m)) =
                    some (Val.m (setKey "signature"
                      (Val.m ((eraseKey "value" sig) ++ [("value", Val.s s)]))
                      (setKey "signature" (Val.m (eraseKey "value" sig)) sg))) :=
                  lookupKey_setKey_self
                have hlk2 : lookupKey "signature" (setKey "signature"
                    (Val.m ((eraseKey "value" sig) ++ [("value", Val.s s)]))
                    (setKey "signature" (Val.m (eraseKey "value" sig)) sg)) =
                    some (Val.m ((eraseKey "value" sig) ++ [("value", Val.s s)])) :=
                  lookupKey_setKey_self
                have hlk3 : lookupKey "value" ((eraseKey "value" sig) ++ [("value", Val.s s)]) =
                    some (Val.s s) := by
                  rw [lookupKey_append_right hhkv]
                  simp [lookupKey_cons]
                have hee : eraseKey "value" ((eraseKey "value" sig) ++ [("value", Val.s s)]) =
                    eraseKey "value" sig := by
                  rw [eraseKey_append, eraseKey_of_not_has hhkv]
                  simp [eraseKey_cons]
                simp only [SignManifest.remove_signature, hsg, hsig, hval, hlk, hlk2, hlk3, hee,
                  hse', Bool.false_eq_true, if_false]
                rw [heff]
                simp only [setKey_setKey]
              · have hlk : lookupKey "signing" (setKey "signing" (Val.m (setKey "signature"
                    (Val.m ((eraseKey "value" sig) ++ [("value", Val.s s)]))
                    (setKey "signature" (Val.m (eraseKey "value" sig)) sg)))
                    (SignManifest.remove_signature_eff m)) =
                    some (Val.m (setKey "signature"
                      (Val.m ((eraseKey "value" sig) ++ [("value", Val.s s)]))
                      (setKey "signature" (Val.m (eraseKey "value" sig)) sg))) :=
                  lookupKey_setKey_self
                have hlk2 : lookupKey "signature" (setKey "signature"
                    (Val.m ((eraseKey "value" sig) ++ [("value", Val.s s)]))
                    (setKey "signature" (Val.m (eraseKey "value" sig)) sg)) =
                    some (Val.m ((eraseKey "value" sig) ++ [("value", Val.s s)])) :=
                  lookupKey_setKey_self
                have hlk3 : lookupKey "value" ((eraseKey "value" sig) ++ [("value", Val.s s)]) =
                    some (Val.s s) := by
                  rw [lookupKey_append_right hhkv]
                  simp [lookupKey_cons]
                simp [VerifyManifest.extract_signature, hlk, hlk2, hlk3]

end WellFormed

section ClaimSupport

/-- `remove_signature` succeeds whenever `signing` and `signature` are
mappings. -/
theorem remove_signature_ok_of_maps {m : Doc} {sg sig : Doc}
    (hsg : lookupKey "signing" m = some (Val.m sg))
    (hsig : lookupKey "signature" sg = some (Val.m sig)) :
    ∃ q, SignManifest.remove_signature m = .ok q := by
  cases hval : lookupKey "value" sig with
  | none =>
    by_cases h1 : sig.isEmpty
    · by_cases h2 : (eraseKey "signature" sg).isEmpty
      · exact ⟨eraseKey "signing" m,
          by simp [SignManifest.remove_signature, hsg, hsig, hval, h1, h2]⟩
      · exact ⟨setKey "signing" (Val.m (eraseKey "signature" sg)) m,
          by simp [SignManifest.remove_signature, hsg, hsig, hval, h1, h2]⟩
    · exact ⟨m, by simp [SignManifest.remove_signature, hsg, hsig, hval, h1]⟩
  | some v0 =>
    by_cases h1 : (eraseKey "value" sig).isEmpty
    · by_cases h2 : (eraseKey "signature" sg).isEmpty
      · exact ⟨eraseKey "signing" m,
          by simp [SignManifest.remove_signature, hsg, hsig, hval, h1, h2]⟩
      · exact ⟨setKey "signing" (Val.m (eraseKey "signature" sg)) m,
          by simp [SignManifest.remove_signature, hsg, hsig, hval, h1, h2]⟩
    · exact ⟨setKey "signing" (Val.m (setKey "signature" (Val.m (eraseKey "value" sig)) sg)) m,
        by simp [SignManifest.remove_signature, hsg, hsig, hval, h1]⟩

/-- `remove_signature` succeeds on every well-formed manifest. -/
theorem remove_signature_ok_of_wf (m : Doc) (hwf : wellFormedManifest m = true) :
    ∃ q, SignManifest.remove_signature m = .ok q := by
  have hwf2 := (bAnd hwf).2
  cases hsg : lookupKey "signing" m with
  | none => exact ⟨m, by simp [SignManifest.remove_signature, hsg]⟩
  | some vs =>
    cases vs with
    | s str =>
      rw [hsg] at hwf2
      simp at hwf2
    | m sg =>
      rw [hsg] at hwf2
      have hwf3 := (bAnd hwf2).2
      cases hsig : lookupKey "signature" sg with
      | none => exact ⟨m, by simp [SignManifest.remove_signature, hsg, hsig]⟩
      | some v2 =>
        cases v2 with
        | s str =>
          rw [hsig] at hwf3
          simp at hwf3
        | m sig => exact remove_signature_ok_of_maps hsg hsig

/-- A successfully extracted signature pins down the mapping structure of
the document. -/
theorem extract_some_elim {m : Doc} {v : Val}
    (h : VerifyManifest.extract_signature m = .ok (some v)) :
    ∃ sg sig, lookupKey "signing" m = some (Val.m sg) ∧
      lookupKey "signature" sg = some (Val.m sig) ∧
      lookupKey "value" sig = some v := by
  cases hsg : lookupKey "signing" m with
  | none => simp [VerifyManifest.extract_signature, hsg] at h
  | some vs =>
    cases vs with
    | s str => simp [VerifyManifest.extract_signature, hsg] at h
    | m sg =>
      cases hsig : lookupKey "signature" sg with
      | none => simp [VerifyManifest.extract_signature, hsg, hsig] at h
      | some v2 =>
        cases v2 with
        | s str => simp [VerifyManifest.extract_signature, hsg, hsig] at h
        | m sig =>
          cases hval : lookupKey "value" sig with
          | none => simp [VerifyManifest.extract_signature, hsg, hsig, hval] at h
          | some v0 =>
            have h' : v0 = v := by
              simpa [VerifyManifest.extract_signature, hsg, hsig, hval] using h
            refine ⟨sg, sig, rfl, hsig, ?_⟩
            rw [hval, h']

end ClaimSupport

/-- Claim C1: for every well-formed manifest `m` and matching minisign key
pair, signing `m` with `sign_manifest` and then verifying the written file
with `verify_manifest` succeeds (returns `True`, printing "Signature
valid"), assuming the external primitive's contract: `minisign -V` accepts
any signature freshly produced by `minisign -S` over the same payload
bytes (and minisign emits a non-empty signature). -/
theorem claim_C1_roundtrip
    (signD : String → Option String) (verifyD : String → String → Bool)
    (m : Doc)
    (hwf : wellFormedManifest m = true)
    (hsome : ∀ msg, signD msg ≠ none)
    (hne : ∀ msg sg, signD msg = some sg → sg ≠ "")
    (hcontract : ∀ msg sg, signD msg = some sg → verifyD msg sg = true) :
    ∃ signed : Doc,
      SignManifest.sign_manifest signD (some m) true = (.ok signed, some signed, true) ∧
      VerifyManifest.verify_manifest verifyD true (some signed) = .ok true := by
  obtain ⟨q, hq⟩ := remove_signature_ok_of_wf m hwf
  have hpay : SignManifest.canonical_payload m = .ok (yamlDump q) := by
    simp [SignManifest.canonical_payload, hq, Except.map]
  cases hsD : signD (yamlDump q) with
  | none => exact absurd hsD (hsome _)
  | some sg =>
    have hsgne := hne _ _ hsD
    obtain ⟨d', hins, hrm, hext⟩ := roundtrip_core m sg hwf
    refine ⟨d', ?_, ?_⟩
    · simp [SignManifest.sign_manifest, hpay, hsD, hins]
    · have hpay' : VerifyManifest.canonical_payload d' = .ok (yamlDump q) := by
        show SignManifest.canonical_payload d' = _
        simp [SignManifest.canonical_payload, hrm, hq, Except.map]
      have htr : isTruthy (Val.s sg) = true := by simp [isTruthy, hsgne]
      simp [VerifyManifest.verify_manifest, hext, htr, hpay', hcontract _ _ hsD]

/-- Witness for claim C1 at a concrete manifest and a concrete primitive
satisfying the contract. -/
theorem claim_C1_roundtrip_witness :
    ∃ signed : Doc,
      SignManifest.sign_manifest (fun _ => some "SIG")
        (some [("schema_uri", Val.s "demo")]) true = (.ok signed, some signed, true) ∧
      VerifyManifest.verify_manifest (fun _ _ => true) true (some signed) = .ok true :=
  claim_C1_roundtrip (fun _ => some "SIG") (fun _ _ => true)
    [("schema_uri", Val.s "demo")] (by decide)
    (fun _ h => by simp at h)
    (fun _ sg h => by
      simp at h
      rw [← h]
      decide)
    (fun _ _ _ => rfl)

deriving instance DecidableEq for Except

/-- Claim C2: for every signed manifest `sm`, mutating any field other than
the signature value — leaving the signature extractable and changing the
stripped payload document — and then running `verify_manifest` on the
mutated document `mdoc` yields a failed verification (`False`, the
Tampered outcome), never `True` and never an uncaught exception, assuming
the external verifier rejects any signature over bytes different from the
signed bytes.  Both stripped documents are assumed plain-safe, the
fragment on which the serialiser model is faithful and injective. -/
theorem claim_C2_tamper
    (verifyD : String → String → Bool) (sm mdoc : Doc) (v : String) (q q' : Doc)
    (hsm : SignManifest.remove_signature sm = .ok q)
    (hes : VerifyManifest.extract_signature sm = .ok (some (Val.s v)))
    (hm' : SignManifest.remove_signature mdoc = .ok q')
    (hext : VerifyManifest.extract_signature mdoc = .ok (some (Val.s v)))
    (hv : v ≠ "")
    (hps : plainSafeEntries q = true) (hps' : plainSafeEntries q' = true)
    (hmut : q' ≠ q)
    (hrej : ∀ msg, msg ≠ yamlDump q → verifyD msg v = false) :
    VerifyManifest.verify_manifest verifyD true (some mdoc) = .ok false := by
  have hbytes : yamlDump q' ≠ yamlDump q := by
    intro hb
    exact hmut (yamlDump_inj q' q hps' hps hb)
  have htr : isTruthy (Val.s v) = true := by simp [isTruthy, hv]
  have hpay : VerifyManifest.canonical_payload mdoc = .ok (yamlDump q') := by
    show SignManifest.canonical_payload mdoc = _
    simp [SignManifest.canonical_payload, hm', Except.map]
  simp [VerifyManifest.verify_manifest, hext, htr, hpay, hrej _ hbytes]

/-- Witness for claim C2: a concretely signed two-field manifest whose
`metadata` field is changed after signing; the external verifier accepts
exactly the originally signed bytes. -/
theorem claim_C2_tamper_witness :
    VerifyManifest.verify_manifest
      (fun msg _ => decide (msg = yamlDump [("metadata", Val.s "app")])) true
      (some [("metadata", Val.s "tampered"),
             ("signing", Val.m [("signature", Val.m [("value", Val.s "SIG")])])]) =
      .ok false :=
  claim_C2_tamper
    (fun msg _ => decide (msg = yamlDump [("metadata", Val.s "app")]))
    [("metadata", Val.s "app"),
     ("signing", Val.m [("signature", Val.m [("value", Val.s "SIG")])])]
    [("metadata", Val.s "tampered"),
     ("signing", Val.m [("signature", Val.m [("value", Val.s "SIG")])])]
    "SIG" [("metadata", Val.s "app")] [("metadata", Val.s "tampered")]
    (by decide) (by decide) (by decide) (by decide) (by decide) (by decide) (by decide)
    (by decide)
    (fun msg hne => by simp [hne])

/-- Claim C3, counterexample: a manifest whose signature value is exactly
the placeholder sentinel `"${MINISIGN_SIG}"` does *not* make the verifier
return before the external verification primitive: `verify_manifest`
extracts the (truthy) placeholder and reaches the external `minisign -V`
invocation with it. -/
theorem claim_C3_counterexample :
    VerifyManifest.extract_signature
        [("signing", Val.m [("signature", Val.m [("value", Val.s TagProtect.PLACEHOLDER)])])] =
      .ok (some (Val.s TagProtect.PLACEHOLDER)) ∧
    VerifyManifest.verify_invokes_external true
        (some [("signing", Val.m [("signature", Val.m [("value", Val.s TagProtect.PLACEHOLDER)])])]) =
      true := by
  constructor
  · decide
  · decide

/-- Claim C3, amended: a manifest whose signature is absent (or present but
falsy — the empty string or an empty mapping) fails verification before the
external primitive is invoked; a manifest whose signature value equals the
placeholder sentinel is passed to the external verifier, which rejects it
(assuming the external verifier rejects the placeholder string, which is
not a well-formed signature), so such a manifest never verifies as Valid
and never crashes the verifier. -/
theorem claim_C3_amended (verifyD : String → String → Bool) (pk : Bool) (m : Doc) :
    (VerifyManifest.extract_signature m = .ok none →
       VerifyManifest.verify_manifest verifyD pk (some m) = .ok false ∧
       VerifyManifest.verify_invokes_external pk (some m) = false) ∧
    (∀ w, VerifyManifest.extract_signature m = .ok (some w) → isTruthy w = false →
       VerifyManifest.verify_manifest verifyD pk (some m) = .ok false ∧
       VerifyManifest.verify_invokes_external pk (some m) = false) ∧
    ((∀ p, verifyD p TagProtect.PLACEHOLDER = false) →
       VerifyManifest.extract_signature m = .ok (some (Val.s TagProtect.PLACEHOLDER)) →
       VerifyManifest.verify_manifest verifyD pk (some m) = .ok false) := by
  refine ⟨?_, ?_, ?_⟩
  · intro hext
    constructor
    · simp [VerifyManifest.verify_manifest, hext]
    · simp [VerifyManifest.verify_invokes_external, hext]
  · intro w hext hfalsy
    constructor
    · simp [VerifyManifest.verify_manifest, hext, hfalsy]
    · simp [VerifyManifest.verify_invokes_external, hext, hfalsy]
  · intro hrej hext
    obtain ⟨sg, sig, hsg, hsig, hval⟩ := extract_some_elim hext
    obtain ⟨q, hq⟩ := remove_signature_ok_of_maps hsg hsig
    have hpay : VerifyManifest.canonical_payload m = .ok (yamlDump q) := by
      show SignManifest.canonical_payload m = _
      simp [SignManifest.canonical_payload, hq, Except.map]
    have htr : isTruthy (Val.s TagProtect.PLACEHOLDER) = true := by decide
    simp [VerifyManifest.verify_manifest, hext, htr, hpay, hrej]

/-- Witness for the amended claim C3, instantiating its three parts at
concrete manifests. -/
theorem claim_C3_amended_witness :
    (VerifyManifest.verify_manifest (fun _ _ => false) true (some [("a", Val.s "x")]) =
       .ok false ∧
     VerifyManifest.verify_invokes_external true (some [("a", Val.s "x")]) = false) ∧
    (VerifyManifest.verify_manifest (fun _ _ => false) true
       (some [("signing", Val.m [("signature", Val.m [("value", Val.s "")])])]) = .ok false ∧
     VerifyManifest.verify_invokes_external true
       (some [("signing", Val.m [("signature", Val.m [("value", Val.s "")])])]) = false) ∧
    VerifyManifest.verify_manifest (fun _ _ => false) true
      (some [("signing", Val.m [("signature",
        Val.m [("value", Val.s TagProtect.PLACEHOLDER)])])]) = .ok false := by
  refine ⟨?_, ?_, ?_⟩
  · exact (claim_C3_amended (fun _ _ => false) true [("a", Val.s "x")]).1 (by decide)
  · exact (claim_C3_amended (fun _ _ => false) true
      [("signing", Val.m [("signature", Val.m [("value", Val.s "")])])]).2.1
      (Val.s "") (by decide) (by decide)
  · exact (claim_C3_amended (fun _ _ => false) true
      [("signing", Val.m [("signature", Val.m [("value", Val.s TagProtect.PLACEHOLDER)])])]).2.2
      (fun _ => rfl) (by decide)

/-- Claim C4, code evaluation: the Signer's and the Verifier's canonical
payloads coincide on every document (the two files contain identical
canonicalisation code), but the Release Gate's built-in verifier computes a
different canonical payload: at the concrete manifest below the
signer/verifier payload is the order-preserving block YAML of the whole
document while the gate payload is the key-sorted compact JSON of the
`doc_index` sub-object, and the two byte strings differ.  The spec's
abstract requirement of exactly one canonicalization function over exactly
one payload scope is violated by the code (a defect the spec itself flags
in its design notes). -/
theorem claim_C4_canonicalization :
    (∀ d : Doc, VerifyManifest.canonical_payload d = SignManifest.canonical_payload d) ∧
    SignManifest.canonical_payload
        [("doc_index", Val.m [("a", Val.s "b"),
          ("signing", Val.m [("signature", Val.m [("value", Val.s "SIG")])])])] =
      .ok "doc_index:\n  a: b\n  signing:\n    signature:\n      value: SIG\n" ∧
    TagProtect.canonical_payload_of
        [("doc_index", Val.m [("a", Val.s "b"),
          ("signing", Val.m [("signature", Val.m [("value", Val.s "SIG")])])])] =
      "\x7b\"a\":\"b\",\"signing\":\x7b\"signature\":\x7b\x7d\x7d\x7d" ∧
    ("doc_index:\n  a: b\n  signing:\n    signature:\n      value: SIG\n" : String) ≠
      "\x7b\"a\":\"b\",\"signing\":\x7b\"signature\":\x7b\x7d\x7d\x7d" := by
  refine ⟨fun d => rfl, ?_, ?_, ?_⟩
  · simp [SignManifest.canonical_payload, SignManifest.remove_signature, lookupKey,
      yamlDump, joinLines, dumpEntries, indentChars, Except.map]
  · simp [TagProtect.canonical_payload_of, TagProtect.canonical_payload_within,
      TagProtect.canonical, lookupKey, hasKey, eraseKey, setKey, sortVal, sortValEntries,
      insertionSortByKey, insertEntry, jsonRaw, jsonRawEntries, jsonQuote, jsonEscapeChar,
      hexDigit, lbrace, rbrace]
  · decide

section ClaimC5

theorem mem_keysOf_setKey {a k : String} {v : Val} {l : Doc}
    (h : a ∈ keysOf (setKey k v l)) : a = k ∨ a ∈ keysOf l := by
  induction l with
  | nil =>
    rw [setKey_nil, keysOf, List.map_cons] at h
    simp at h
    exact Or.inl h
  | cons e rest ih =>
    obtain ⟨k2, v2⟩ := e
    rw [setKey_cons] at h
    by_cases h2 : k2 = k
    · rw [if_pos h2] at h
      rw [keysOf, List.map_cons, List.mem_cons] at h
      rcases h with h | h
      · exact Or.inl h
      · exact Or.inr (by rw [keysOf, List.map_cons, List.mem_cons]; exact Or.inr h)
    · rw [if_neg h2] at h
      rw [keysOf, List.map_cons, List.mem_cons] at h
      rcases h with h | h
      · exact Or.inr (by rw [keysOf, List.map_cons, List.mem_cons]; exact Or.inl h)
      · rcases ih h with h3 | h3
        · exact Or.inl h3
        · exact Or.inr (by rw [keysOf, List.map_cons, List.mem_cons]; exact Or.inr h3)

theorem nodupKeys_setKey {k : String} {v : Val} {l : Doc} (h : NodupKeys l) :
    NodupKeys (setKey k v l) := by
  induction l with
  | nil =>
    rw [setKey_nil]
    simp [NodupKeys, keysOf]
  | cons e rest ih =>
    obtain ⟨k2, v2⟩ := e
    rw [NodupKeys, keysOf, List.map_cons, List.nodup_cons] at h
    rw [setKey_cons]
    by_cases h2 : k2 = k
    · subst h2
      rw [if_pos rfl, NodupKeys, keysOf, List.map_cons, List.nodup_cons]
      exact h
    · rw [if_neg h2, NodupKeys, keysOf, List.map_cons, List.nodup_cons]
      refine ⟨?_, ih h.2⟩
      intro hmem
      rcases mem_keysOf_setKey hmem with h3 | h3
      · exact h2 h3
      · exact h.1 h3

/-- Inserting into a document without a `signing` key and stripping again
restores the document. -/
theorem insert_strip_shape1 (p : Doc) (s : String)
    (h : lookupKey "signing" p = none) :
    ∃ i, SignManifest.insert_signature p s = .ok i ∧
      SignManifest.remove_signature i = .ok p := by
  have hhk : hasKey "signing" p = false := hasKey_eq_false.mpr h
  refine ⟨p ++ [("signing", Val.m [("signature", Val.m [("value", Val.s s)])])], ?_, ?_⟩
  · simp [SignManifest.insert_signature, h]
  · have hlk : lookupKey "signing"
        (p ++ [("signing", Val.m [("signature", Val.m [("value", Val.s s)])])]) =
        some (Val.m [("signature", Val.m [("value", Val.s s)])]) := by
      rw [lookupKey_append_right hhk]
      simp [lookupKey_cons]
    simp [SignManifest.remove_signature, hlk, lookupKey_cons, eraseKey_cons,
      eraseKey_append, eraseKey_of_not_has hhk]

/-- Inserting into a document whose non-empty `signing` mapping lacks a
`signature` key and stripping again restores the document. -/
theorem insert_strip_shape2 (p t : Doc) (s : String)
    (hnd : NodupKeys p)
    (h : lookupKey "signing" p = some (Val.m t)) (ht : t ≠ [])
    (hsig : lookupKey "signature" t = none) :
    ∃ i, SignManifest.insert_signature p s = .ok i ∧
      SignManifest.remove_signature i = .ok p := by
  have hhk : hasKey "signature" t = false := hasKey_eq_false.mpr hsig
  refine ⟨setKey "signing" (Val.m (t ++ [("signature", Val.m [("value", Val.s s)])])) p,
    ?_, ?_⟩
  · simp [SignManifest.insert_signature, h, hsig]
  · have hlk : lookupKey "signing" (setKey "signing"
        (Val.m (t ++ [("signature", Val.m [("value", Val.s s)])])) p) =
        some (Val.m (t ++ [("signature", Val.m [("value", Val.s s)])])) :=
      lookupKey_setKey_self
    have hlk2 : lookupKey "signature" (t ++ [("signature", Val.m [("value", Val.s s)])]) =
        some (Val.m [("value", Val.s s)]) := by
      rw [lookupKey_append_right hhk]
      simp [lookupKey_cons]
    simp [SignManifest.remove_signature, hlk, hlk2, lookupKey_cons, eraseKey_cons,
      eraseKey_append, eraseKey_of_not_has hhk, isEmpty_false_of_ne_nil ht,
      setKey_setKey, setKey_self hnd h]

/-- Inserting into a document whose `signing.signature` mapping is
non-empty and lacks a `value` key and stripping again restores the
document. -/
theorem insert_strip_shape3 (p t u : Doc) (s : String)
    (hnd : NodupKeys p) (hndt : NodupKeys t)
    (h : lookupKey "signing" p = some (Val.m t))
    (hsig : lookupKey "signature" t = some (Val.m u)) (hu : u ≠ [])
    (hval : lookupKey "value" u = none) :
    ∃ i, SignManifest.insert_signature p s = .ok i ∧
      SignManifest.remove_signature i = .ok p := by
  have hhkv : hasKey "value" u = false := hasKey_eq_false.mpr hval
  refine ⟨setKey "signing" (Val.m (setKey "signature"
    (Val.m (u ++ [("value", Val.s s)])) t)) p, ?_, ?_⟩
  · simp [SignManifest.insert_signature, h, hsig, setKey_of_not_has hhkv]
  · have hlk : lookupKey "signing" (setKey "signing" (Val.m (setKey "signature"
        (Val.m (u ++ [("value", Val.s s)])) t)) p) =
        some (Val.m (setKey "signature" (Val.m (u ++ [("value", Val.s s)])) t)) :=
      lookupKey_setKey_self
    have hlk2 : lookupKey "signature" (setKey "signature"
        (Val.m (u ++ [("value", Val.s s)])) t) =
        some (Val.m (u ++ [("value", Val.s s)])) := lookupKey_setKey_self
    have hlk3 : lookupKey "value" (u ++ [("value", Val.s s)]) = some (Val.s s) := by
      rw [lookupKey_append_right hhkv]
      simp [lookupKey_cons]
    have hee : eraseKey "value" (u ++ [("value", Val.s s)]) = u := by
      rw [eraseKey_append, eraseKey_of_not_has hhkv]
      simp [eraseKey_cons]
    simp only [SignManifest.remove_signature, hlk, hlk2, hlk3, hee,
      isEmpty_false_of_ne_nil hu, Bool.false_eq_true, if_false]
    simp only [setKey_setKey, setKey_self hndt hsig, setKey_self hnd h]

/-- Claim C5, counterexample: the invariant
`strip(insert(strip(d), s)) == strip(d)` fails at the document
`{signing: {}}`: stripping leaves it unchanged, inserting a signature
fills the empty `signing` mapping, and stripping the result collapses
`signing` away entirely, yielding `{}` instead of `{signing: {}}`. -/
theorem claim_C5_counterexample :
    ¬ (∀ (d : Doc) (s : String) (p i : Doc),
        SignManifest.remove_signature d = .ok p →
        SignManifest.insert_signature p s = .ok i →
        SignManifest.remove_signature i = .ok p) := by
  intro h
  have h1 : SignManifest.remove_signature [("signing", Val.m [])] =
      .ok [("signing", Val.m [])] := by decide
  have h2 : SignManifest.insert_signature [("signing", Val.m [])] "SIG" =
      .ok [("signing", Val.m [("signature", Val.m [("value", Val.s "SIG")])])] := by decide
  have h3 := h [("signing", Val.m [])] "SIG" [("signing", Val.m [])]
    [("signing", Val.m [("signature", Val.m [("value", Val.s "SIG")])])] h1 h2
  have h4 : SignManifest.remove_signature
      [("signing", Val.m [("signature", Val.m [("value", Val.s "SIG")])])] =
      .ok [] := by decide
  rw [h4] at h3
  simp at h3

/-- Claim C5, amended: for every document `d` whose `signing` section, when
present, is not the empty mapping (and is well-typed with unique keys —
`wellFormedManifest`), and every signature string `s`,
`strip(insert(strip(d), s)) = strip(d)`, and consequently the canonical
payload is unchanged by embedding a signature into the stripped document. -/
theorem claim_C5_amended (d : Doc) (s : String) (hwf : wellFormedManifest d = true) :
    ∃ p i, SignManifest.remove_signature d = .ok p ∧
      SignManifest.insert_signature p s = .ok i ∧
      SignManifest.remove_signature i = .ok p ∧
      SignManifest.canonical_payload i = SignManifest.canonical_payload d := by
  have hnd : NodupKeys d := of_decide_eq_true (bAnd hwf).1
  have hwf2 := (bAnd hwf).2
  cases hsg : lookupKey "signing" d with
  | none =>
    obtain ⟨i, hi, hri⟩ := insert_strip_shape1 d s hsg
    have hd : SignManifest.remove_signature d = .ok d := by
      simp [SignManifest.remove_signature, hsg]
    exact ⟨d, i, hd, hi, hri, by
      simp [SignManifest.canonical_payload, hri, hd]⟩
  | some vsg =>
    cases vsg with
    | s str =>
      rw [hsg] at hwf2
      simp at hwf2
    | m sg =>
      rw [hsg] at hwf2
      have hsgne : sg ≠ [] := by
        intro hnil
        subst hnil
        exact absurd (bAnd (bAnd hwf2).1).1 (by decide)
      have hndsg : NodupKeys sg := of_decide_eq_true (bAnd (bAnd hwf2).1).2
      have hwf3 := (bAnd hwf2).2
      cases hsig : lookupKey "signature" sg with
      | none =>
        obtain ⟨i, hi, hri⟩ := insert_strip_shape2 d sg s hnd hsg hsgne hsig
        have hd : SignManifest.remove_signature d = .ok d := by
          simp [SignManifest.remove_signature, hsg, hsig]
        exact ⟨d, i, hd, hi, hri, by simp [SignManifest.canonical_payload, hri, hd]⟩
      | some vsig =>
        cases vsig with
        | s str =>
          rw [hsig] at hwf3
          simp at hwf3
        | m sig =>
          rw [hsig] at hwf3
          have hndsig : NodupKeys sig := of_decide_eq_true hwf3
          cases hval : lookupKey "value" sig with
          | none =>
            by_cases hsignil : sig = []
            · subst hsignil
              by_cases hsg' : eraseKey "signature" sg = []
              · have hd : SignManifest.remove_signature d = .ok (eraseKey "signing" d) := by
                  simp [SignManifest.remove_signature, hsg, hsig, hval, hsg']
                obtain ⟨i, hi, hri⟩ := insert_strip_shape1 (eraseKey "signing" d) s
                  lookupKey_eraseKey_self
                exact ⟨_, i, hd, hi, hri, by simp [SignManifest.canonical_payload, hri, hd]⟩
              · have hd : SignManifest.remove_signature d =
                    .ok (setKey "signing" (Val.m (eraseKey "signature" sg)) d) := by
                  simp [SignManifest.remove_signature, hsg, hsig, hval, hsg']
                obtain ⟨i, hi, hri⟩ := insert_strip_shape2
                  (setKey "signing" (Val.m (eraseKey "signature" sg)) d)
                  (eraseKey "signature" sg) s (nodupKeys_setKey hnd)
                  lookupKey_setKey_self hsg' lookupKey_eraseKey_self
                exact ⟨_, i, hd, hi, hri, by simp [SignManifest.canonical_payload, hri, hd]⟩
            · have hd : SignManifest.remove_signature d = .ok d := by
                simp [SignManifest.remove_signature, hsg, hsig, hval,
                  isEmpty_false_of_ne_nil hsignil]
              obtain ⟨i, hi, hri⟩ := insert_strip_shape3 d sg sig s hnd hndsg hsg hsig
                hsignil hval
              exact ⟨d, i, hd, hi, hri, by simp [SignManifest.canonical_payload, hri, hd]⟩
          | some v0 =>
            by_cases hse : eraseKey "value" sig = []
            · by_cases hsg' : eraseKey "signature" sg = []
              · have hd : SignManifest.remove_signature d = .ok (eraseKey "signing" d) := by
                  simp [SignManifest.remove_signature, hsg, hsig, hval, hse, hsg']
                obtain ⟨i, hi, hri⟩ := insert_strip_shape1 (eraseKey "signing" d) s
                  lookupKey_eraseKey_self
                exact ⟨_, i, hd, hi, hri, by simp [SignManifest.canonical_payload, hri, hd]⟩
              · have hd : SignManifest.remove_signature d =
                    .ok (setKey "signing" (Val.m (eraseKey "signature" sg)) d) := by
                  simp [SignManifest.remove_signature, hsg, hsig, hval, hse, hsg']
                obtain ⟨i, hi, hri⟩ := insert_strip_shape2
                  (setKey "signing" (Val.m (eraseKey "signature" sg)) d)
                  (eraseKey "signature" sg) s (nodupKeys_setKey hnd)
                  lookupKey_setKey_self hsg' lookupKey_eraseKey_self
                exact ⟨_, i, hd, hi, hri, by simp [SignManifest.canonical_payload, hri, hd]⟩
            · have hd : SignManifest.remove_signature d =
                  .ok (setKey "signing" (Val.m (setKey "signature"
                    (Val.m (eraseKey "value" sig)) sg)) d) := by
                simp [SignManifest.remove_signature, hsg, hsig, hval,
                  isEmpty_false_of_ne_nil hse]
              obtain ⟨i, hi, hri⟩ := insert_strip_shape3
                (setKey "signing" (Val.m (setKey "signature"
                  (Val.m (eraseKey "value" sig)) sg)) d)
                (setKey "signature" (Val.m (eraseKey "value" sig)) sg)
                (eraseKey "value" sig) s (nodupKeys_setKey hnd) (nodupKeys_setKey hndsg)
                lookupKey_setKey_self lookupKey_setKey_self hse lookupKey_eraseKey_self
              exact ⟨_, i, hd, hi, hri, by simp [SignManifest.canonical_payload, hri, hd]⟩

/-- Witness for the amended claim C5 at a concrete previously signed
manifest. -/
theorem claim_C5_amended_witness :
    ∃ p i, SignManifest.remove_signature
        [("a", Val.s "x"),
         ("signing", Val.m [("signature", Val.m [("value", Val.s "OLD")])])] = .ok p ∧
      SignManifest.insert_signature p "NEW" = .ok i ∧
      SignManifest.remove_signature i = .ok p ∧
      SignManifest.canonical_payload i = SignManifest.canonical_payload
        [("a", Val.s "x"),
         ("signing", Val.m [("signature", Val.m [("value", Val.s "OLD")])])] :=
  claim_C5_amended
    [("a", Val.s "x"), ("signing", Val.m [("signature", Val.m [("value", Val.s "OLD")])])]
    "NEW" (by decide)

end ClaimC5

section ClaimC6

theorem all_map_general {α β : Type} (f : α → β) (p : β → Bool) (l : List α) :
    (l.map f).all p = l.all (fun a => p (f a)) := by
  induction l with
  | nil => rfl
  | cons a t ih => simp [List.all_cons, ih]

theorem all_of_perm {α : Type} {l1 l2 : List α} (h : l1.Perm l2) (f : α → Bool) :
    l1.all f = l2.all f := by
  cases b2 : l2.all f
  · cases b1 : l1.all f
    · rfl
    · have := List.all_eq_true.mp b1
      have hall : l2.all f = true :=
        List.all_eq_true.mpr (fun x hx => this x (h.mem_iff.mpr hx))
      rw [b2] at hall
      exact hall.symm
  · exact List.all_eq_true.mpr (fun x hx => List.all_eq_true.mp b2 x (h.mem_iff.mp hx))

end ClaimC6

/-- Claim C6: the Release Gate evaluates every discovered manifest even
after a failure (one result row per discovered manifest, in sorted order),
and its overall result is pass exactly when at least one manifest was
discovered and every discovered manifest verifies; in particular an empty
discovery yields failure.  `vf` abstracts the per-manifest verifier the
loop calls (the fallback verifier returning `(success, message)`). -/
theorem claim_C6_gate (vf : String → Bool × String) (mdir : String)
    (manifests : List String) :
    ((TagProtect.check_tag_protection vf mdir manifests).1 =
       (!manifests.isEmpty && manifests.all (fun n => (vf n).1))) ∧
    (manifests = [] →
       (TagProtect.check_tag_protection vf mdir manifests).1 = false) ∧
    (manifests ≠ [] →
       ∃ rs, (TagProtect.check_tag_protection vf mdir manifests).2 = .inr rs ∧
         rs.map (fun r => r.manifest) =
           manifests.mergeSort (fun a b => decide (a ≤ b)) ∧
         (rs.map (fun r => r.manifest)).Perm manifests ∧
         ∀ r ∈ rs, r.success = (vf r.manifest).1 ∧ r.message = (vf r.manifest).2) := by
  refine ⟨?_, ?_, ?_⟩
  · by_cases hnil : manifests.isEmpty
    · simp [TagProtect.check_tag_protection, hnil]
    · have hne : manifests.isEmpty = false := by simpa using hnil
      simp only [TagProtect.check_tag_protection, hne, Bool.false_eq_true, if_false,
        Bool.not_false, Bool.true_and]
      rw [all_map_general]
      exact all_of_perm (List.mergeSort_perm manifests (fun a b => decide (a ≤ b)))
        (fun name => (vf name).1)
  · intro hnil
    subst hnil
    simp [TagProtect.check_tag_protection]
  · intro hne
    have hne' : manifests.isEmpty = false := isEmpty_false_of_ne_nil hne
    refine ⟨(manifests.mergeSort (fun a b => decide (a ≤ b))).map
      (fun name => TagProtect.GateEntry.mk name (vf name).1 (vf name).2), ?_, ?_, ?_, ?_⟩
    · simp [TagProtect.check_tag_protection, hne']
    · rw [List.map_map]
      have hcomp : ((fun r : TagProtect.GateEntry => r.manifest) ∘
          (fun name => TagProtect.GateEntry.mk name (vf name).1 (vf name).2)) = id := rfl
      rw [hcomp, List.map_id]
    · rw [List.map_map]
      have hcomp : ((fun r : TagProtect.GateEntry => r.manifest) ∘
          (fun name => TagProtect.GateEntry.mk name (vf name).1 (vf name).2)) = id := rfl
      rw [hcomp, List.map_id]
      exact List.mergeSort_perm manifests (fun a b => decide (a ≤ b))
    · intro r hr
      obtain ⟨name, -, rfl⟩ := List.mem_map.mp hr
      exact ⟨rfl, rfl⟩

/-- Witness for claim C6 at a concrete verifier and manifest lists. -/
theorem claim_C6_gate_witness :
    (TagProtect.check_tag_protection (fun n => (n = "good", "msg")) "mdir" []).1 = false ∧
    ∃ rs, (TagProtect.check_tag_protection (fun n => (n = "good", "msg")) "mdir"
        ["bad", "good"]).2 = .inr rs ∧
      rs.map (fun r => r.manifest) =
        (["bad", "good"] : List String).mergeSort (fun a b => decide (a ≤ b)) ∧
      (rs.map (fun r => r.manifest)).Perm ["bad", "good"] ∧
      ∀ r ∈ rs, r.success = (r.manifest = "good" : Bool) ∧ r.message = "msg" :=
  ⟨(claim_C6_gate (fun n => (n = "good", "msg")) "mdir" []).2.1 rfl,
   (claim_C6_gate (fun n => (n = "good", "msg")) "mdir" ["bad", "good"]).2.2 (by simp)⟩

/-- Claim C7, counterexample: for a three-leaf list the Merkle fold of
`hash_inventory.py` computes `H(H(l0‖l1) ‖ H(l2‖l2))`, not the claimed
`H(H(H(l0‖l1)) ‖ H(l2‖l2))` with an extra hash around the left pair: the
two formulas differ at an explicit digest function and explicit leaves. -/
theorem claim_C7_counterexample :
    ¬ (∀ (H : List Nat → List Nat) (l0 l1 l2 : List Nat),
        HashInventory.merkleRoot H [l0, l1, l2] =
          H (H (H (l0 ++ l1)) ++ H (l2 ++ l2))) := by
  intro h
  have h2 := h (fun bs => [bs.sum % 256, 7]) [1] [2] [3]
  have hcode : HashInventory.merkleRoot (fun bs => [bs.sum % 256, 7]) [[1], [2], [3]] =
      [23, 7] := by
    simp [HashInventory.merkleRoot, HashInventory.merkleLoop, HashInventory.merklePass]
  rw [hcode] at h2
  simp at h2

/-- Claim C7, amended: for any digest function `H` and any three leaves in
sorted-path order, the Hash Inventory Builder's Merkle root is
`H(H(l0‖l1) ‖ H(l2‖l2))`: adjacent leaves are paired left to right, the
odd last node is duplicated as its own partner, and the two level-one
nodes are hashed together. -/
theorem claim_C7_amended (H : List Nat → List Nat) (l0 l1 l2 : List Nat) :
    HashInventory.merkleRoot H [l0, l1, l2] = H (H (l0 ++ l1) ++ H (l2 ++ l2)) := by
  simp [HashInventory.merkleRoot, HashInventory.merkleLoop, HashInventory.merklePass]

section ClaimC8

/-- How often a path occurs in the collected (pre-sort) file list: once per
include pattern it matches, provided the tree lists each file once. -/
theorem count_enumerateFiles (pats tree : List String) (p : String)
    (hnd : tree.Nodup) (hmem : p ∈ tree) (hskip : HashInventory.isSkipped p = false) :
    List.count p (HashInventory.enumerateFiles pats tree) =
      pats.countP (fun pat => HashInventory.fnmatch p pat) := by
  induction pats with
  | nil => simp [HashInventory.enumerateFiles]
  | cons pat ps ih =>
    rw [HashInventory.enumerateFiles, List.flatMap_cons, List.count_append]
    rw [show (ps.flatMap (fun pt =>
      tree.filter (fun q => !(HashInventory.isSkipped q) && HashInventory.fnmatch q pt))) =
      HashInventory.enumerateFiles ps tree from rfl, ih]
    rw [List.countP_cons]
    by_cases hm : HashInventory.fnmatch p pat
    · have hf : (!(HashInventory.isSkipped p) && HashInventory.fnmatch p pat) = true := by
        simp [hskip, hm]
      rw [@List.count_filter String _ _
        (fun q => !(HashInventory.isSkipped q) && HashInventory.fnmatch q pat) p tree hf,
        List.count_eq_one_of_mem hnd hmem]
      simp [hm]
      omega
    · have hm' : HashInventory.fnmatch p pat = false := by simpa using hm
      have hzero : List.count p (tree.filter
          (fun q => !(HashInventory.isSkipped q) && HashInventory.fnmatch q pat)) = 0 := by
        rw [List.count_eq_zero]
        intro hmem2
        have := (List.mem_filter.mp hmem2).2
        simp [hm'] at this
      rw [hzero]
      simp [hm']

/-- The paths column of the inventory is the sorted file list. -/
theorem entriesOf_map_fst (digest : String → List Nat) (pats tree : List String) :
    (HashInventory.entriesOf digest pats tree).map Prod.fst =
      (HashInventory.enumerateFiles pats tree).mergeSort (fun a b => decide (a ≤ b)) := by
  rw [HashInventory.entriesOf, List.map_map]
  have hcomp : (Prod.fst ∘ fun p => (p, digest p)) = (id : String → String) := rfl
  rw [hcomp, List.map_id]

end ClaimC8

/-- Claim C8, counterexample: a file path does *not* appear exactly once in
the inventory regardless of how many include patterns it matches: with the
include list `["a", "a"]` over the single file `a`, the file is collected
once per pattern and the entry list contains the path twice. -/
theorem claim_C8_counterexample :
    ¬ (∀ (digest : String → List Nat) (pats tree : List String) (p : String),
        List.count p ((HashInventory.entriesOf digest pats tree).map Prod.fst) ≤ 1) := by
  intro h
  have h2 := h (fun _ => [1]) ["a", "a"] ["a"] "a"
  have hcount : List.count "a"
      ((HashInventory.entriesOf (fun _ => [1]) ["a", "a"] ["a"]).map Prod.fst) = 2 := by
    rw [entriesOf_map_fst,
      (List.mergeSort_perm (HashInventory.enumerateFiles ["a", "a"] ["a"])
        (fun a b => decide (a ≤ b))).count_eq,
      count_enumerateFiles ["a", "a"] ["a"] "a" (by decide) (by decide)
        (by decide)]
    simp [List.countP_cons, HashInventory.fnmatch, HashInventory.globMatch]
  rw [hcount] at h2
  exact absurd h2 (by norm_num)

/-- Claim C8, amended: the inventory's entry list is sorted by path under
the total lexicographic string order (possibly with adjacent duplicates),
every non-skipped file in the tree appears once per include pattern it
matches — exactly once when, as with the default include list, no file
matches two patterns — and the entries (hence the Merkle root computed
from them) do not depend on the filesystem enumeration order of the tree. -/
theorem claim_C8_amended (digest : String → List Nat) (pats tree : List String) :
    List.Sorted (· ≤ ·) ((HashInventory.entriesOf digest pats tree).map Prod.fst) ∧
    (tree.Nodup → ∀ p ∈ tree, HashInventory.isSkipped p = false →
      List.count p ((HashInventory.entriesOf digest pats tree).map Prod.fst) =
        pats.countP (fun pat => HashInventory.fnmatch p pat)) ∧
    (∀ tree', tree'.Perm tree →
      HashInventory.entriesOf digest pats tree' = HashInventory.entriesOf digest pats tree) := by
  have htrans : ∀ a b c : String, decide (a ≤ b) = true → decide (b ≤ c) = true →
      decide (a ≤ c) = true := by
    intro a b c h1 h2
    simp only [decide_eq_true_eq] at h1 h2 ⊢
    exact le_trans h1 h2
  have htotal : ∀ a b : String, (decide (a ≤ b) || decide (b ≤ a)) = true := by
    intro a b
    rcases le_total a b with h | h <;> simp [h]
  have hsorted : ∀ l : List String,
      List.Sorted (· ≤ ·) (l.mergeSort (fun a b => decide (a ≤ b))) := by
    intro l
    have := List.sorted_mergeSort htrans htotal l
    exact this.imp (fun h => by simpa using h)
  refine ⟨?_, ?_, ?_⟩
  · rw [entriesOf_map_fst]
    exact hsorted _
  · intro hnd p hmem hskip
    rw [entriesOf_map_fst,
      (List.mergeSort_perm _ _).count_eq,
      count_enumerateFiles pats tree p hnd hmem hskip]
  · intro tree' hperm
    have hperm2 : (HashInventory.enumerateFiles pats tree').Perm
        (HashInventory.enumerateFiles pats tree) := by
      induction pats with
      | nil => simp [HashInventory.enumerateFiles]
      | cons pat ps ih =>
        rw [HashInventory.enumerateFiles, HashInventory.enumerateFiles,
          List.flatMap_cons, List.flatMap_cons]
        exact (hperm.filter _).append ih
    have hsortEq : (HashInventory.enumerateFiles pats tree').mergeSort
        (fun a b => decide (a ≤ b)) =
        (HashInventory.enumerateFiles pats tree).mergeSort (fun a b => decide (a ≤ b)) := by
      refine List.eq_of_perm_of_sorted ?_ (hsorted _) (hsorted _)
      exact ((List.mergeSort_perm _ _).trans hperm2).trans
        (List.mergeSort_perm _ _).symm
    rw [HashInventory.entriesOf, HashInventory.entriesOf, hsortEq]

/-- Witness for the amended claim C8 at a concrete tree with overlapping
include patterns. -/
theorem claim_C8_amended_witness :
    List.count "a" ((HashInventory.entriesOf (fun _ => [1]) ["a", "*"] ["b", "a"]).map
        Prod.fst) =
      (["a", "*"] : List String).countP (fun pat => HashInventory.fnmatch "a" pat) ∧
    HashInventory.entriesOf (fun _ => [1]) ["a", "*"] ["a", "b"] =
      HashInventory.entriesOf (fun _ => [1]) ["a", "*"] ["b", "a"] := by
  constructor
  · exact (claim_C8_amended (fun _ => [1]) ["a", "*"] ["b", "a"]).2.1 (by decide)
      "a" (by decide) (by decide)
  · exact (claim_C8_amended (fun _ => [1]) ["a", "*"] ["b", "a"]).2.2 ["a", "b"]
      (List.Perm.swap "a" "b" []).symm

/-- Claim C9: `sign_manifest` fails fast — with the not-found error and a
non-zero exit — when the manifest path or the secret key path does not
exist, before the external signing primitive is invoked; and when the
external primitive fails (bad password, process error, missing binary) the
operation fails with the manifest file left byte-for-byte unmodified: on
every error path the file content after the call equals the content
before. -/
theorem claim_C9_failfast (signD : String → Option String)
    (m? : Option Doc) (keyExists : Bool) :
    (m? = none →
       SignManifest.sign_manifest signD m? keyExists =
         (.notFound, none, false)) ∧
    (∀ m, m? = some m → keyExists = false →
       SignManifest.sign_manifest signD m? keyExists =
         (.notFound, some m, false)) ∧
    (∀ m p, m? = some m → keyExists = true →
       SignManifest.canonical_payload m = .ok p → signD p = none →
       SignManifest.sign_manifest signD m? keyExists =
         (.signError, some m, true)) := by
  refine ⟨?_, ?_, ?_⟩
  · intro h
    subst h
    rfl
  · intro m hm hk
    subst hm
    subst hk
    rfl
  · intro m p hm hk hpay hsig
    subst hm
    subst hk
    simp [SignManifest.sign_manifest, hpay, hsig]

/-- Witness for claim C9 at concrete inputs for each of its three error
paths. -/
theorem claim_C9_failfast_witness :
    (SignManifest.sign_manifest (fun _ => some "SIG") none true =
       (.notFound, none, false)) ∧
    (SignManifest.sign_manifest (fun _ => some "SIG") (some [("a", Val.s "x")]) false =
       (.notFound, some [("a", Val.s "x")], false)) ∧
    (SignManifest.sign_manifest (fun _ => none) (some [("a", Val.s "x")]) true =
       (.signError, some [("a", Val.s "x")], true)) := by
  refine ⟨?_, ?_, ?_⟩
  · exact (claim_C9_failfast (fun _ => some "SIG") none true).1 rfl
  · exact (claim_C9_failfast (fun _ => some "SIG") (some [("a", Val.s "x")]) false).2.1
      [("a", Val.s "x")] rfl rfl
  · exact (claim_C9_failfast (fun _ => none) (some [("a", Val.s "x")]) true).2.2
      [("a", Val.s "x")] (yamlDump [("a", Val.s "x")]) rfl rfl
      (by simp [SignManifest.canonical_payload, SignManifest.remove_signature, lookupKey,
        Except.map])
      rfl

/-- Claim C10: `remove_signature` copies its argument only shallowly: for
every manifest whose `signing.signature` mapping contains a `value` key,
the call deletes that key from the nested signature mapping of the
*original* document as a side effect — the caller's document, whose
post-call state is `remove_signature_eff`, is mutated rather than left
unchanged.  (`canonical_payload` calls `remove_signature`, so it has the
same effect.) -/
theorem claim_C10_mutation (m : Doc) (sg sig : Doc) (v : Val)
    (hsg : lookupKey "signing" m = some (Val.m sg))
    (hsig : lookupKey "signature" sg = some (Val.m sig))
    (hval : lookupKey "value" sig = some v) :
    (∃ sg', lookupKey "signing" (SignManifest.remove_signature_eff m) = some (Val.m sg') ∧
       ∀ sig', lookupKey "signature" sg' = some (Val.m sig') →
         lookupKey "value" sig' = none) ∧
    SignManifest.remove_signature_eff m ≠ m := by
  by_cases hse : (eraseKey "value" sig).isEmpty
  · have heff : SignManifest.remove_signature_eff m =
        setKey "signing" (Val.m (eraseKey "signature" sg)) m := by
      simp [SignManifest.remove_signature_eff, hsg, hsig, hval, hse]
    constructor
    · refine ⟨eraseKey "signature" sg, by rw [heff]; exact lookupKey_setKey_self, ?_⟩
      intro sig' hsig'
      rw [lookupKey_eraseKey_self] at hsig'
      cases hsig'
    · intro heq
      rw [heq] at heff
      have h1 : lookupKey "signing" m =
          some (Val.m (eraseKey "signature" sg)) := by
        conv_lhs => rw [heff]
        exact lookupKey_setKey_self
      rw [hsg] at h1
      have h2 : sg = eraseKey "signature" sg := by
        simpa using h1
      rw [← h2] at h1
      have := lookupKey_eraseKey_self (k := "signature") (l := sg)
      rw [← h2, hsig] at this
      cases this
  · have heff : SignManifest.remove_signature_eff m =
        setKey "signing" (Val.m (setKey "signature"
          (Val.m (eraseKey "value" sig)) sg)) m := by
      simp [SignManifest.remove_signature_eff, hsg, hsig, hval, hse]
    constructor
    · refine ⟨setKey "signature" (Val.m (eraseKey "value" sig)) sg,
        by rw [heff]; exact lookupKey_setKey_self, ?_⟩
      intro sig' hsig'
      rw [lookupKey_setKey_self] at hsig'
      have : sig' = eraseKey "value" sig := by
        simpa using hsig'.symm
      rw [this]
      exact lookupKey_eraseKey_self
    · intro heq
      rw [heq] at heff
      have h1 : lookupKey "signing" m =
          some (Val.m (setKey "signature" (Val.m (eraseKey "value" sig)) sg)) := by
        conv_lhs => rw [heff]
        exact lookupKey_setKey_self
      rw [hsg] at h1
      have h2 : sg = setKey "signature" (Val.m (eraseKey "value" sig)) sg := by
        simpa using h1
      have h3 : lookupKey "signature" sg = some (Val.m (eraseKey "value" sig)) := by
        conv_lhs => rw [h2]
        exact lookupKey_setKey_self
      rw [hsig] at h3
      have h4 : sig = eraseKey "value" sig := by
        simpa using h3
      have := lookupKey_eraseKey_self (k := "value") (l := sig)
      rw [← h4, hval] at this
      cases this

/-- Witness for claim C10 at a concrete signed manifest. -/
theorem claim_C10_mutation_witness :
    (∃ sg', lookupKey "signing" (SignManifest.remove_signature_eff
        [("signing", Val.m [("signature", Val.m [("value", Val.s "SIG"),
          ("key_id", Val.s "k")])])]) = some (Val.m sg') ∧
       ∀ sig', lookupKey "signature" sg' = some (Val.m sig') →
         lookupKey "value" sig' = none) ∧
    SignManifest.remove_signature_eff
        [("signing", Val.m [("signature", Val.m [("value", Val.s "SIG"),
          ("key_id", Val.s "k")])])] ≠
      [("signing", Val.m [("signature", Val.m [("value", Val.s "SIG"),
        ("key_id", Val.s "k")])])] :=
  claim_C10_mutation
    [("signing", Val.m [("signature", Val.m [("value", Val.s "SIG"), ("key_id", Val.s "k")])])]
    [("signature", Val.m [("value", Val.s "SIG"), ("key_id", Val.s "k")])]
    [("value", Val.s "SIG"), ("key_id", Val.s "k")] (Val.s "SIG")
    (by decide) (by decide) (by decide)
